import Mathlib

/-!
# Pattern matcher: the DFA engine of `src/lib/dfa.js`

A shallow embedding of `computeFailureFunction`, `buildDFA` and `simulateDFA`.

* A JavaScript string is the list of its UTF-16 code units (`JSString`).
  `s.length` and `s[i]` work on code units, while `for (const c of s)` walks
  code points (`codePoints`): a well-formed surrogate pair is one two-unit string.
* `undefined` is `none`; a thrown `TypeError` (a property read on `undefined`)
  is the `none` result of `simulateDFA`.
* `while` loops take a fuel argument and return `none` when it runs out; the
  theorems below show that the fuel handed over by the callers always suffices.
-/

namespace PatternMatcher

/-- A JavaScript string, as the list of its UTF-16 code units. -/
abbrev JSString := List Nat

/-- Leading (high) surrogate code unit. -/
def isHighSurrogate (u : Nat) : Bool := decide (0xD800 ≤ u) && decide (u ≤ 0xDBFF)

/-- Trailing (low) surrogate code unit. -/
def isLowSurrogate (u : Nat) : Bool := decide (0xDC00 ≤ u) && decide (u ≤ 0xDFFF)

/-- The string iterator behind `for (const c of s)`: one string per code point. -/
def codePoints : JSString → List JSString
  | [] => []
  | [u] => [[u]]
  | u :: v :: rest =>
    if isHighSurrogate u && isLowSurrogate v then [u, v] :: codePoints rest
    else [u] :: codePoints (v :: rest)

/-- Code units removed by `String.prototype.trim` (ECMAScript WhiteSpace and LineTerminator). -/
def isWhiteSpace (u : Nat) : Bool :=
  u == 0x09 || u == 0x0A || u == 0x0B || u == 0x0C || u == 0x0D || u == 0x20 || u == 0xA0 ||
  u == 0x1680 || (decide (0x2000 ≤ u) && decide (u ≤ 0x200A)) || u == 0x2028 || u == 0x2029 ||
  u == 0x202F || u == 0x205F || u == 0x3000 || u == 0xFEFF

/-- The method `s.trim()`. -/
def trim (s : JSString) : JSString :=
  ((s.dropWhile isWhiteSpace).reverse.dropWhile isWhiteSpace).reverse

/-- The test `c && c.trim()` of the alphabet loops: both strings are non-empty. -/
def keepChar (c : JSString) : Bool := !c.isEmpty && !(trim c).isEmpty

/-- The read `s[i]`: a one-unit string, or `undefined`. -/
def charAt (s : JSString) (i : Nat) : Option JSString := (s.get? i).map (fun u => [u])

/-- The comparison `a < b` of two strings: lexicographic on code units. -/
def strLt : JSString → JSString → Bool
  | _, [] => false
  | [], _ :: _ => true
  | a :: as, b :: bs => decide (a < b) || (a == b && strLt as bs)

/-- Insertion of `x` into a sorted list, after the elements that are smaller. -/
def sortInsert (x : JSString) : List JSString → List JSString
  | [] => [x]
  | y :: ys => if strLt y x then y :: sortInsert x ys else x :: y :: ys

/-- The call `arr.sort()` on an array of strings (default comparator, stable). -/
def jsSort : List JSString → List JSString
  | [] => []
  | x :: xs => sortInsert x (jsSort xs)

/-- A plain object used as a map: the write `o[k] = v`. -/
def objSet {κ ν : Type} [DecidableEq κ] (o : List (κ × ν)) (k : κ) (v : ν) :
    List (κ × ν) :=
  if o.any (fun e => decide (e.1 = k)) then o.map (fun e => if e.1 = k then (k, v) else e)
  else o ++ [(k, v)]

/-- A plain object used as a map: the read `o[k]`, `none` for `undefined`. -/
def objGet {κ ν : Type} [DecidableEq κ] (o : List (κ × ν)) (k : κ) : Option ν :=
  (o.find? (fun e => decide (e.1 = k))).map (fun e => e.2)

/-- The type `DFAState`. -/
structure DFAState where
  id : Nat
  isStart : Bool
  isAccepting : Bool
  label : String
  deriving DecidableEq, Repr

/-- The type `DFATransition`. -/
structure DFATransition where
  «from» : Nat
  «to» : Nat
  char : JSString
  deriving DecidableEq, Repr

/-- The type `TransitionTable`: state, then character, then next state. -/
abbrev TransitionTable := List (Nat × List (JSString × Nat))

/-- The type `DFAResult`. -/
structure DFAResult where
  states : List DFAState
  transitions : List DFATransition
  transitionTable : TransitionTable
  alphabet : List JSString
  deriving DecidableEq, Repr

/-- The type `SimulationStep`. -/
structure SimulationStep where
  charIndex : Nat
  char : JSString
  fromState : Option Nat
  toState : Option Nat
  matched : Bool
  matchStart : Option Int
  deriving DecidableEq, Repr

/-- The type `MatchResult`. -/
structure MatchResult where
  steps : List SimulationStep
  «matches» : List Int
  totalComparisons : Nat
  deriving DecidableEq, Repr

/-- The `while (i < m)` loop of `computeFailureFunction`; one unit of fuel per iteration.
The read `lps[len - 1]` happens with `0 < len ≤ i - 1`, inside the array. -/
def failureLoop (pattern : JSString) : Nat → List Nat → Nat → Nat → Option (List Nat)
  | fuel, lps, len, i =>
    if i < pattern.length then
      match fuel with
      | 0 => none
      | fuel + 1 =>
        if pattern.get? i = pattern.get? len then
          failureLoop pattern fuel (lps.set i (len + 1)) (len + 1) (i + 1)
        else if len ≠ 0 then
          failureLoop pattern fuel lps (lps.getD (len - 1) 0) i
        else
          failureLoop pattern fuel (lps.set i 0) len (i + 1)
    else some lps

/-- The function `computeFailureFunction`, the loop being given `2 * m` iterations. -/
def computeFailureFunction (pattern : JSString) : Option (List Nat) :=
  failureLoop pattern (2 * pattern.length) (List.replicate pattern.length 0) 0 1

/-- The alphabet loops of `buildDFA`: `for (const c of ...)` over the code points `cs`,
threading `alphabetSet` and the array the new characters are pushed to. -/
def addChars : List JSString → List JSString → List JSString → List JSString × List JSString
  | [], alphabetSet, out => (alphabetSet, out)
  | c :: cs, alphabetSet, out =>
    if keepChar c && !alphabetSet.contains c then addChars cs (alphabetSet ++ [c]) (out ++ [c])
    else addChars cs alphabetSet out

/-- The alphabet of `buildDFA`: pattern characters first, then the others sorted. -/
def buildAlphabet (pattern text : JSString) : List JSString :=
  let fromPattern := addChars (codePoints pattern) [] []
  let fromText := addChars (codePoints text) fromPattern.1 []
  fromPattern.2 ++ jsSort fromText.2

/-- The state objects of `buildDFA`. -/
def buildStates (m : Nat) : List DFAState :=
  (List.range (m + 1)).map
    (fun i => { id := i, isStart := i == 0, isAccepting := i == m, label := "q" ++ toString i })

/-- The loop `while (k > 0 && pattern[k] !== char) k = failure[k - 1]`; one unit of fuel
per iteration. The read `failure[k - 1]` happens with `0 < k ≤ state < m`, inside the array. -/
def fallback (pattern : JSString) (failure : List Nat) (char : JSString) :
    Nat → Nat → Option Nat
  | fuel, k =>
    if 0 < k ∧ charAt pattern k ≠ some char then
      match fuel with
      | 0 => none
      | fuel + 1 => fallback pattern failure char fuel (failure.getD (k - 1) 0)
    else some k

/-- The body of the inner loop of `buildDFA`: the value of `nextState`, the failure-chain
walk being given `state` iterations. -/
def nextState (pattern : JSString) (failure : List Nat) (state : Nat) (char : JSString) :
    Option Nat :=
  if state < pattern.length ∧ charAt pattern state = some char then some (state + 1)
  else if state = pattern.length then some pattern.length
  else
    (fallback pattern failure char state state).map
      (fun k => if charAt pattern k = some char then k + 1 else 0)

/-- The loop `for (const char of alphabet)` of `buildDFA` for one state. -/
def rowLoop (pattern : JSString) (failure : List Nat) (state : Nat) :
    List JSString → List (JSString × Nat) → List DFATransition →
    Option (List (JSString × Nat) × List DFATransition)
  | [], row, transitions => some (row, transitions)
  | char :: rest, row, transitions =>
    match nextState pattern failure state char with
    | none => none
    | some next =>
      rowLoop pattern failure state rest (objSet row char next)
        (transitions ++ [{ «from» := state, «to» := next, char := char }])

/-- The loop `for (let state = 0; state <= m; state++)` of `buildDFA`. -/
def tableLoop (pattern : JSString) (failure : List Nat) (alphabet : List JSString) :
    List Nat → TransitionTable → List DFATransition →
    Option (TransitionTable × List DFATransition)
  | [], table, transitions => some (table, transitions)
  | state :: rest, table, transitions =>
    match rowLoop pattern failure state alphabet [] transitions with
    | none => none
    | some (row, transitions2) =>
      tableLoop pattern failure alphabet rest (objSet table state row) transitions2

/-- The function `buildDFA`. -/
def buildDFA (pattern : JSString) (text : JSString) : Option DFAResult :=
  if pattern.isEmpty then
    some { states := [{ id := 0, isStart := true, isAccepting := false, label := "q0" }],
           transitions := [],
           transitionTable := [(0, [])],
           alphabet := [] }
  else
    let m := pattern.length
    let alphabet := buildAlphabet pattern text
    let states := buildStates m
    match computeFailureFunction pattern with
    | none => none
    | some failure =>
      match tableLoop pattern failure alphabet (List.range (m + 1)) [] [] with
      | none => none
      | some (table, transitions) =>
        some { states := states, transitions := transitions, transitionTable := table,
               alphabet := alphabet }

/-- The value of `toState` in one iteration of `simulateDFA`; the outer `none` is the
`TypeError` of reading a property of `undefined`, the inner one is `undefined`. -/
def lookupNext (transitionTable : TransitionTable) (alphabet : List JSString)
    (currentState : Option Nat) (char : JSString) : Option (Option Nat) :=
  if alphabet.contains char then
    match currentState with
    | none => none
    | some s =>
      match objGet transitionTable s with
      | none => none
      | some row => some (objGet row char)
  else some (some 0)

/-- The step object pushed by one iteration of `simulateDFA`, with
`isMatch = (currentState === m)` taken after the transition. -/
def mkStep (m i : Nat) (char : JSString) (fromState toState : Option Nat) : SimulationStep :=
  let isMatch := decide (toState = some m)
  { charIndex := i, char := char, fromState := fromState, toState := toState,
    matched := isMatch,
    matchStart := if isMatch then some ((i : Int) - (m : Int) + 1) else none }

/-- The loop `for (let i = 0; i < text.length; i++)` of `simulateDFA`, on the code
units still to read. -/
def simLoop (m : Nat) (transitionTable : TransitionTable) (alphabet : List JSString) :
    List Nat → Nat → Option Nat → List SimulationStep → List Int →
    Option (List SimulationStep × List Int)
  | [], _, _, steps, found => some (steps, found)
  | u :: rest, i, currentState, steps, found =>
    match lookupNext transitionTable alphabet currentState [u] with
    | none => none
    | some toState =>
      simLoop m transitionTable alphabet rest (i + 1) toState
        (steps ++ [mkStep m i [u] currentState toState])
        (if toState = some m then found ++ [(i : Int) - (m : Int) + 1] else found)

/-- The function `simulateDFA`. -/
def simulateDFA (pattern text : JSString) (transitionTable : TransitionTable)
    (alphabet : List JSString) : Option MatchResult :=
  match simLoop pattern.length transitionTable alphabet text 0 (some 0) [] [] with
  | none => none
  | some (steps, found) =>
    some { steps := steps, «matches» := found, totalComparisons := text.length }

/-- The composition used by the callers: build the DFA of `pattern` with the sample
text `sample`, then run it over `text`. -/
def runDFA (pattern sample text : JSString) : Option MatchResult :=
  match buildDFA pattern sample with
  | none => none
  | some dfa => simulateDFA pattern text dfa.transitionTable dfa.alphabet

/-- Code units of an ASCII string literal. -/
def ofAscii (s : String) : JSString := s.toList.map Char.toNat

/-! ## Specification vocabulary -/

/-- `k` is the length of the longest prefix of `p`, among its prefixes of length at most
`b`, that is a suffix of `w`. -/
def IsLongest (b : Nat) (p w : JSString) (k : Nat) : Prop :=
  k ≤ b ∧ p.take k <:+ w ∧ ∀ k2, k2 ≤ b → p.take k2 <:+ w → k2 ≤ k

/-- `k` is the length of the longest proper prefix of `s` that is also a suffix of `s`. -/
def LongestProperBorder (s : JSString) (k : Nat) : Prop :=
  (∃ w : JSString, w <+: s ∧ w <:+ s ∧ w.length < s.length ∧ w.length = k) ∧
  ∀ w : JSString, w <+: s → w <:+ s → w.length < s.length → w.length ≤ k

/-- The text has the pattern at index `s`: `text[s..s+m)` equals the pattern. -/
def OccursAt (pattern text : JSString) (s : Nat) : Prop :=
  (text.drop s).take pattern.length = pattern

/-- The elements of a list in order of first occurrence, each once. -/
def firstOccurrences {α : Type} [DecidableEq α] : List α → List α
  | [] => []
  | x :: xs => x :: (firstOccurrences xs).filter (fun y => decide (y ≠ x))

/-- The code point of a one-character string: the unit itself, or the scalar value a
surrogate pair encodes. -/
def codePointOf : JSString → Nat
  | [u] => u
  | [h, l] => 0x10000 + (h - 0xD800) * 0x400 + (l - 0xDC00)
  | _ => 0

/-- The alphabet rule of the data model, for a given strict order `lt` on characters:
the distinct non-blank characters of the pattern in first-occurrence order, then the
distinct non-blank characters of the text that are not in the pattern, ascending. -/
def AlphabetRule (lt : JSString → JSString → Prop) (pattern text : JSString)
    (alphabet : List JSString) : Prop :=
  ∃ others : List JSString,
    alphabet = firstOccurrences ((codePoints pattern).filter keepChar) ++ others ∧
    others.Pairwise lt ∧
    ∀ c, c ∈ others ↔ c ∈ codePoints text ∧ keepChar c = true ∧ c ∉ codePoints pattern

/-- The transitions pushed while the rows of the states `sts` are built. -/
def flatTransitions (p : JSString) (lps : List Nat) (alphabet : List JSString)
    (sts : List Nat) : List DFATransition :=
  sts.flatMap (fun s => alphabet.map (fun c =>
    { «from» := s, «to» := (nextState p lps s c).getD 0, char := c }))

/-- One move of the automaton held in the table of `buildDFA`, as `simulateDFA` takes
it: the table entry for an alphabet character, `0` for any other character. -/
def dfaNext (p : JSString) (lps : List Nat) (alphabet : List JSString) (s u : Nat) : Nat :=
  if [u] ∈ alphabet then (nextState p lps s [u]).getD 0 else 0

/-- The state of the automaton after reading the word `w` from state `s`. -/
def dfaRun (p : JSString) (lps : List Nat) (alphabet : List JSString) (s : Nat)
    (w : List Nat) : Nat :=
  w.foldl (dfaNext p lps alphabet) s

/-- After `j` code units of the text the run has seen the pattern end at some index
`e ≤ j`, and every unit read since then is an alphabet character. -/
def Absorbed (p : JSString) (alphabet : List JSString) (text : JSString) (j : Nat) : Prop :=
  ∃ e, e ≤ j ∧ p <:+ text.take e ∧ ∀ i, e ≤ i → i < j → [text.getD i 0] ∈ alphabet

/-- The string holds a well-formed surrogate pair (a character outside the BMP). -/
def hasSurrogatePair : JSString → Bool
  | [] => false
  | [_] => false
  | u :: v :: rest => (isHighSurrogate u && isLowSurrogate v) || hasSurrogatePair (v :: rest)

/-- The increasing list of all indices `s` such that `text[s..s+m)` equals the pattern. -/
def occurrences (pattern text : JSString) : List Int :=
  ((List.range (text.length + 1)).filter
    (fun s => decide ((text.drop s).take pattern.length = pattern))).map
      (fun (s : Nat) => (s : Int))

/-- The transition table that `buildDFA("ab")` returns (states 0, 1, 2 over 'a', 'b'). -/
def tableAB : TransitionTable :=
  [(0, [([97], 1), ([98], 0)]), (1, [([97], 1), ([98], 2)]), (2, [([97], 2), ([98], 2)])]

/-- The alphabet that `buildDFA("ab")` returns. -/
def alphabetAB : List JSString := [[97], [98]]

/-! ## `getExtendedAlphabet` -/

/-- The call `chars.add(c)` on a `Set`, kept as the list of its elements in insertion
order. -/
def setAdd (chars : List JSString) (c : JSString) : List JSString :=
  if chars.contains c then chars else chars ++ [c]

/-- The function `getExtendedAlphabet`. -/
def getExtendedAlphabet (pattern text : JSString) : List JSString :=
  let afterPattern := (codePoints pattern).foldl setAdd []
  let chars := (codePoints text).foldl setAdd afterPattern
  jsSort chars

/-! ## The playback state machine of `useDFASimulation` -/

/-- The type `SimulationState`. -/
structure SimulationState where
  isRunning : Bool
  isPaused : Bool
  currentStep : Int
  speed : Int
  deriving DecidableEq, Repr

/-- The state held by the hook `useDFASimulation`: `dfa`, `matchResult` (`none` for
`null`) and `simulation`. -/
structure HookState where
  dfa : Option DFAResult
  matchResult : Option MatchResult
  simulation : SimulationState
  deriving DecidableEq, Repr

/-- The initial values of the three `useState` calls. -/
def initialHook : HookState :=
  { dfa := none, matchResult := none,
    simulation := { isRunning := false, isPaused := false, currentStep := -1, speed := 500 } }

/-- The effect on `[pattern, text]`: rebuild the DFA, recompute the steps, reset the
playback. -/
def loadEffect (pattern text : JSString) (hs : HookState) : HookState :=
  let sim := { hs.simulation with isRunning := false, isPaused := false, currentStep := -1 }
  if pattern.isEmpty then { dfa := none, matchResult := none, simulation := sim }
  else
    match buildDFA pattern text with
    | none => { dfa := none, matchResult := none, simulation := sim }
    | some newDfa =>
      if text.isEmpty then { dfa := some newDfa, matchResult := none, simulation := sim }
      else
        { dfa := some newDfa,
          matchResult := simulateDFA pattern text newDfa.transitionTable newDfa.alphabet,
          simulation := sim }

/-- The callback `startSimulation`. -/
def startSimulation (hs : HookState) : HookState :=
  match hs.matchResult with
  | none => hs
  | some r =>
    if r.steps.length = 0 then hs
    else
      { hs with simulation :=
        { hs.simulation with
          isRunning := true, isPaused := false,
          currentStep :=
            if hs.simulation.currentStep = (r.steps.length : Int) - 1 then 0
            else hs.simulation.currentStep + 1 } }

/-- The callback `pauseSimulation`. -/
def pauseSimulation (hs : HookState) : HookState :=
  { hs with simulation := { hs.simulation with isPaused := true } }

/-- The callback `resumeSimulation`. -/
def resumeSimulation (hs : HookState) : HookState :=
  { hs with simulation := { hs.simulation with isPaused := false } }

/-- The callback `resetSimulation`. -/
def resetSimulation (hs : HookState) : HookState :=
  { hs with simulation :=
    { hs.simulation with isRunning := false, isPaused := false, currentStep := -1 } }

/-- The callback `stepForward`. -/
def stepForward (hs : HookState) : HookState :=
  match hs.matchResult with
  | none => hs
  | some r =>
    { hs with simulation :=
      { hs.simulation with
        currentStep := min (hs.simulation.currentStep + 1) ((r.steps.length : Int) - 1) } }

/-- The callback `stepBackward`. -/
def stepBackward (hs : HookState) : HookState :=
  { hs with simulation :=
    { hs.simulation with currentStep := max (hs.simulation.currentStep - 1) (-1) } }

/-- The callback `setSpeed`. -/
def setSpeed (speed : Int) (hs : HookState) : HookState :=
  { hs with simulation := { hs.simulation with speed := speed } }

/-- The callback `jumpToStep`, for an integer argument. -/
def jumpToStep (step : Int) (hs : HookState) : HookState :=
  match hs.matchResult with
  | none => hs
  | some r =>
    { hs with simulation :=
      { hs.simulation with
        currentStep := max (-1) (min step ((r.steps.length : Int) - 1)) } }

/-- One firing of the auto-advance interval, which exists only while the simulation is
running, not paused, and there is a `matchResult`. -/
def tick (hs : HookState) : HookState :=
  match hs.matchResult with
  | none => hs
  | some r =>
    if hs.simulation.isRunning && !hs.simulation.isPaused then
      if hs.simulation.currentStep ≥ (r.steps.length : Int) - 1 then
        { hs with simulation := { hs.simulation with isRunning := false } }
      else
        { hs with simulation :=
          { hs.simulation with currentStep := hs.simulation.currentStep + 1 } }
    else hs

/-- The operations of the playback state machine. -/
inductive HookOp where
  | load (pattern text : JSString)
  | startSimulation
  | pauseSimulation
  | resumeSimulation
  | resetSimulation
  | stepForward
  | stepBackward
  | setSpeed (speed : Int)
  | jumpToStep (step : Int)
  | tick

/-- The state after one operation. -/
def applyOp (op : HookOp) (hs : HookState) : HookState :=
  match op with
  | .load pattern text => loadEffect pattern text hs
  | .startSimulation => startSimulation hs
  | .pauseSimulation => pauseSimulation hs
  | .resumeSimulation => resumeSimulation hs
  | .resetSimulation => resetSimulation hs
  | .stepForward => stepForward hs
  | .stepBackward => stepBackward hs
  | .setSpeed speed => setSpeed speed hs
  | .jumpToStep step => jumpToStep step hs
  | .tick => tick hs

/-- The playback invariant: `-1 <= currentStep <= n - 1` with
`n = matchResult.steps.length`, and `currentStep = -1` when there is no `matchResult`. -/
def HookInv (hs : HookState) : Prop :=
  match hs.matchResult with
  | none => hs.simulation.currentStep = -1
  | some r =>
    -1 ≤ hs.simulation.currentStep ∧ hs.simulation.currentStep ≤ (r.steps.length : Int) - 1

/-! ## Borders and the fallback step -/

theorem suffix_snoc_iff {α : Type} (l1 l2 : List α) (a b : α) :
    l1 ++ [a] <:+ l2 ++ [b] ↔ l1 <:+ l2 ∧ a = b := by
  constructor
  · rintro ⟨t, ht⟩
    rw [← List.append_assoc] at ht
    have h := List.append_inj' ht rfl
    refine ⟨⟨t, h.1⟩, ?_⟩
    simpa using h.2
  · rintro ⟨⟨t, ht⟩, rfl⟩
    exact ⟨t, by rw [← List.append_assoc, ht]⟩

theorem take_succ_of_get {p : JSString} {k u : Nat} (h : p.get? k = some u) :
    p.take (k + 1) = p.take k ++ [u] := by
  rw [List.take_succ]
  simp only [List.get?_eq_getElem?] at h
  simp [h]

theorem get_of_lt {p : JSString} {k : Nat} (h : k < p.length) : ∃ u, p.get? k = some u := by
  refine ⟨p[k], ?_⟩
  simp [List.getElem?_eq_getElem h]

theorem length_take_le {p : JSString} {k : Nat} (h : k ≤ p.length) : (p.take k).length = k := by
  simp [h]

/-- One fallback `k = failure[k - 1]` keeps the candidate invariant. -/
theorem fallback_step {b : Nat} {p w : JSString} {u k k2 : Nat} (hb : b < p.length)
    (hk : k ≤ b) (hsuf : p.take k <:+ w)
    (hmax : ∀ j, j ≤ b → p.take j <:+ w → p.get? j = some u → j ≤ k)
    (hpos : 0 < k) (hne : p.get? k ≠ some u) (hk2 : IsLongest (k - 1) p (p.take k) k2) :
    k2 < k ∧ p.take k2 <:+ w ∧
      ∀ j, j ≤ b → p.take j <:+ w → p.get? j = some u → j ≤ k2 := by
  obtain ⟨h1, h2, h3⟩ := hk2
  refine ⟨by omega, h2.trans hsuf, ?_⟩
  intro j hj hjs hju
  have hjk := hmax j hj hjs hju
  have hjne : j ≠ k := by
    rintro rfl
    exact hne hju
  apply h3 j (by omega)
  apply List.suffix_of_suffix_length_le hjs hsuf
  rw [length_take_le (by omega), length_take_le (by omega)]
  exact hjk

/-- Leaving the fallback loop: the next state is the longest prefix that is a suffix
of the word extended by `u`. -/
theorem fallback_done {b : Nat} {p w : JSString} {u k : Nat} (hb : b < p.length)
    (hk : k ≤ b) (hsuf : p.take k <:+ w)
    (hmax : ∀ j, j ≤ b → p.take j <:+ w → p.get? j = some u → j ≤ k)
    (hexit : k = 0 ∨ p.get? k = some u) :
    IsLongest (b + 1) p (w ++ [u]) (if p.get? k = some u then k + 1 else 0) := by
  have hmax2 : ∀ j, j ≤ b + 1 → p.take j <:+ w ++ [u] → j = 0 ∨
      ∃ i, j = i + 1 ∧ i ≤ b ∧ p.take i <:+ w ∧ p.get? i = some u := by
    intro j hj hjs
    rcases Nat.eq_zero_or_pos j with h0 | hpos
    · exact Or.inl h0
    · right
      obtain ⟨i, rfl⟩ : ∃ i, j = i + 1 := ⟨j - 1, by omega⟩
      obtain ⟨v, hv⟩ := get_of_lt (p := p) (k := i) (by omega)
      rw [take_succ_of_get hv, suffix_snoc_iff] at hjs
      exact ⟨i, rfl, by omega, hjs.1, by rw [hv, hjs.2]⟩
  by_cases hu : p.get? k = some u
  · rw [if_pos hu]
    refine ⟨by omega, ?_, ?_⟩
    · rw [take_succ_of_get hu, suffix_snoc_iff]
      exact ⟨hsuf, rfl⟩
    · intro j hj hjs
      rcases hmax2 j hj hjs with h0 | ⟨i, rfl, hi, his, hiu⟩
      · omega
      · have := hmax i hi his hiu
        omega
  · rw [if_neg hu]
    have hk0 : k = 0 := by
      rcases hexit with h | h
      · exact h
      · exact absurd h hu
    subst hk0
    refine ⟨by omega, by simp, ?_⟩
    intro j hj hjs
    rcases hmax2 j hj hjs with h0 | ⟨i, rfl, hi, his, hiu⟩
    · omega
    · have hi0 := hmax i hi his hiu
      have : i = 0 := by omega
      subst this
      exact absurd hiu hu

/-- The loop of `computeFailureFunction` ends within its fuel and fills the table with
the longest proper borders. -/
theorem failureLoop_spec (p : JSString) : ∀ (fuel : Nat) (lps : List Nat) (len i : Nat),
    lps.length = p.length → 1 ≤ i →
    (∀ j, j < i → j < p.length → IsLongest j p (p.take (j + 1)) (lps.getD j 0)) →
    (i < p.length → len ≤ i - 1 ∧ p.take len <:+ p.take i ∧
      ∀ j, j ≤ i - 1 → p.take j <:+ p.take i → p.get? j = p.get? i → j ≤ len) →
    2 * (p.length - i) + len ≤ fuel →
    ∃ r, failureLoop p fuel lps len i = some r ∧ r.length = p.length ∧
      ∀ j, j < p.length → IsLongest j p (p.take (j + 1)) (r.getD j 0) := by
  intro fuel
  induction fuel with
  | zero =>
    intro lps len i hlen _ htab _ hfuel
    have hi : ¬ i < p.length := by omega
    rw [failureLoop, if_neg hi]
    exact ⟨lps, rfl, hlen, fun j hj => htab j (by omega) hj⟩
  | succ fuel ih =>
    intro lps len i hlen hi1 htab hcand hfuel
    rw [failureLoop]
    by_cases hi : i < p.length
    · rw [if_pos hi]
      obtain ⟨hle, hsuf, hmax⟩ := hcand hi
      obtain ⟨u, hu⟩ := get_of_lt hi
      have hb : i - 1 < p.length := by omega
      have hmax2 : ∀ j, j ≤ i - 1 → p.take j <:+ p.take i → p.get? j = some u → j ≤ len :=
        fun j hj hjs hju => hmax j hj hjs (by rw [hju, hu])
      have advance : ∀ v, IsLongest i p (p.take (i + 1)) v → v ≤ len + 1 →
          ∃ r, failureLoop p fuel (lps.set i v) v (i + 1) = some r ∧ r.length = p.length ∧
            ∀ j, j < p.length → IsLongest j p (p.take (j + 1)) (r.getD j 0) := by
        intro v hv hvle
        apply ih
        · simpa using hlen
        · omega
        · intro j hj hjm
          by_cases hji : j = i
          · subst hji
            have : ((lps.set j v).getD j 0) = v := by
              simp [List.getElem?_set_self (by omega : j < lps.length)]
            rw [this]
            exact hv
          · have : ((lps.set i v).getD j 0) = lps.getD j 0 := by
              simp [List.getElem?_set_ne (Ne.symm hji)]
            rw [this]
            exact htab j (by omega) hjm
        · intro _
          refine ⟨by have := hv.1; omega, hv.2.1, ?_⟩
          intro j hj hjs _
          exact hv.2.2 j (by omega) hjs
        · omega
      have hdone := fallback_done (u := u) hb hle hsuf hmax2
      rw [← take_succ_of_get hu, Nat.sub_add_cancel hi1] at hdone
      by_cases heq : p.get? i = p.get? len
      · rw [if_pos heq]
        have hlu : p.get? len = some u := by rw [← heq, hu]
        rw [if_pos hlu] at hdone
        exact advance (len + 1) (hdone (Or.inr hlu)) (le_refl _)
      · rw [if_neg heq]
        have hlu : p.get? len ≠ some u := by
          intro h
          exact heq (by rw [h, hu])
        by_cases hl0 : len ≠ 0
        · rw [if_pos hl0]
          have hk2 := htab (len - 1) (by omega) (by omega)
          rw [Nat.sub_add_cancel (by omega : 1 ≤ len)] at hk2
          obtain ⟨h1, h2, h3⟩ := fallback_step hb hle hsuf hmax2 (by omega) hlu hk2
          apply ih _ _ _ hlen hi1 htab
          · intro _
            exact ⟨by omega, h2, fun j hj hjs hju => h3 j hj hjs (by rw [hju, hu])⟩
          · omega
        · rw [if_neg hl0]
          have hl : len = 0 := by omega
          subst hl
          rw [if_neg hlu] at hdone
          exact advance 0 (hdone (Or.inl rfl)) (by omega)
    · rw [if_neg hi]
      exact ⟨lps, rfl, hlen, fun j hj => htab j (by omega) hj⟩

/-- The function `computeFailureFunction` returns, and entry `j` of its result is the
length of the longest prefix of `p` of length at most `j` that is a suffix of `p[0..j]`. -/
theorem computeFailureFunction_spec (p : JSString) :
    ∃ lps, computeFailureFunction p = some lps ∧ lps.length = p.length ∧
      ∀ j, j < p.length → IsLongest j p (p.take (j + 1)) (lps.getD j 0) := by
  unfold computeFailureFunction
  apply failureLoop_spec
  · simp
  · omega
  · intro j hj hjm
    have hj0 : j = 0 := by omega
    subst hj0
    have : (List.replicate p.length 0).getD 0 0 = 0 := by
      simp [List.getElem?_replicate, hjm]
    rw [this]
    exact ⟨le_refl _, by simp, fun k2 hk2 _ => hk2⟩
  · intro _
    exact ⟨by omega, by simp, fun j hj _ _ => by omega⟩
  · omega

/-- Every entry of a correct failure table is at most its index. -/
theorem table_le {p : JSString} {lps : List Nat}
    (htab : ∀ j, j < p.length → IsLongest j p (p.take (j + 1)) (lps.getD j 0))
    (hlen : lps.length = p.length) (j : Nat) : lps.getD j 0 ≤ j := by
  by_cases hj : j < p.length
  · exact (htab j hj).1
  · have : lps.getD j 0 = 0 := by
      simp [List.getElem?_eq_none (by omega : lps.length ≤ j)]
    omega

/-- The failure-chain walk of `buildDFA` ends within `k` steps, for every character,
on a state that is not above the one it started from. -/
theorem fallback_total {p : JSString} {lps : List Nat} (char : JSString)
    (hle : ∀ j, lps.getD j 0 ≤ j) : ∀ (fuel k : Nat), k ≤ fuel →
    ∃ k2, fallback p lps char fuel k = some k2 ∧ k2 ≤ k := by
  intro fuel
  induction fuel with
  | zero =>
    intro k hk
    have hk0 : k = 0 := by omega
    subst hk0
    rw [fallback, if_neg (by simp)]
    exact ⟨0, rfl, le_refl _⟩
  | succ fuel ih =>
    intro k hk
    rw [fallback]
    by_cases hc : 0 < k ∧ charAt p k ≠ some char
    · rw [if_pos hc]
      have h1 := hle (k - 1)
      obtain ⟨k2, hk2, hle2⟩ := ih (lps.getD (k - 1) 0) (by omega)
      exact ⟨k2, hk2, by omega⟩
    · rw [if_neg hc]
      exact ⟨k, rfl, le_refl _⟩

theorem charAt_eq_iff (p : JSString) (k u : Nat) :
    charAt p k = some [u] ↔ p.get? k = some u := by
  unfold charAt
  cases h : p.get? k <;> simp

/-- The failure-chain walk on a one-unit character keeps the candidate invariant and
stops on a state that is `0` or is followed by the character in the pattern. -/
theorem fallback_spec {b : Nat} {p w : JSString} {lps : List Nat} {u : Nat}
    (htab : ∀ j, j < p.length → IsLongest j p (p.take (j + 1)) (lps.getD j 0))
    (hb : b < p.length) : ∀ (fuel k : Nat), k ≤ fuel → k ≤ b → p.take k <:+ w →
    (∀ j, j ≤ b → p.take j <:+ w → p.get? j = some u → j ≤ k) →
    ∃ k2, fallback p lps [u] fuel k = some k2 ∧ k2 ≤ b ∧ p.take k2 <:+ w ∧
      (∀ j, j ≤ b → p.take j <:+ w → p.get? j = some u → j ≤ k2) ∧
      (k2 = 0 ∨ p.get? k2 = some u) := by
  intro fuel
  induction fuel with
  | zero =>
    intro k hk hkb hsuf hmax
    have hk0 : k = 0 := by omega
    subst hk0
    rw [fallback, if_neg (by simp)]
    exact ⟨0, rfl, hkb, hsuf, hmax, Or.inl rfl⟩
  | succ fuel ih =>
    intro k hk hkb hsuf hmax
    rw [fallback]
    by_cases hc : 0 < k ∧ charAt p k ≠ some [u]
    · rw [if_pos hc]
      have hne : p.get? k ≠ some u := fun h => hc.2 ((charAt_eq_iff p k u).2 h)
      have hk2 := htab (k - 1) (by omega)
      rw [Nat.sub_add_cancel (by omega : 1 ≤ k)] at hk2
      obtain ⟨h1, h2, h3⟩ := fallback_step hb hkb hsuf hmax hc.1 hne hk2
      exact ih _ (by omega) (by omega) h2 h3
    · rw [if_neg hc]
      refine ⟨k, rfl, hkb, hsuf, hmax, ?_⟩
      by_cases hk0 : k = 0
      · exact Or.inl hk0
      · right
        by_contra hne
        exact hc ⟨by omega, fun h => hne ((charAt_eq_iff p k u).1 h)⟩

/-- Below the accepting state, the table entry for a one-unit character is the length
of the longest prefix of the pattern that is a suffix of the word read so far. -/
theorem nextState_spec {p w : JSString} {lps : List Nat} {u s : Nat}
    (htab : ∀ j, j < p.length → IsLongest j p (p.take (j + 1)) (lps.getD j 0))
    (hs : s < p.length) (hw : IsLongest p.length p w s) :
    ∃ n, nextState p lps s [u] = some n ∧ IsLongest p.length p (w ++ [u]) n := by
  obtain ⟨_, hsuf, hmax⟩ := hw
  have hb : p.length - 1 < p.length := by omega
  have hmax2 : ∀ j, j ≤ p.length - 1 → p.take j <:+ w → p.get? j = some u → j ≤ s :=
    fun j hj hjs _ => hmax j (by omega) hjs
  unfold nextState
  by_cases h1 : s < p.length ∧ charAt p s = some [u]
  · rw [if_pos h1]
    have hu := (charAt_eq_iff p s u).1 h1.2
    have := fallback_done hb (by omega) hsuf hmax2 (Or.inr hu)
    rw [if_pos hu, Nat.sub_add_cancel (by omega)] at this
    exact ⟨s + 1, rfl, this⟩
  · rw [if_neg h1, if_neg (by omega)]
    obtain ⟨k2, hk2, hk2b, hk2s, hk2m, hexit⟩ :=
      fallback_spec htab hb s s (le_refl _) (by omega) hsuf hmax2
    have := fallback_done hb hk2b hk2s hk2m hexit
    rw [Nat.sub_add_cancel (by omega)] at this
    refine ⟨_, by rw [hk2]; rfl, ?_⟩
    simpa [charAt_eq_iff] using this

/-- Every table entry is defined and bounded, for every state up to `m` and every
character: it is at most `m`, at most one above the state, and `m` at state `m`. -/
theorem nextState_total {p : JSString} {lps : List Nat} (char : JSString) {s : Nat}
    (hle : ∀ j, lps.getD j 0 ≤ j) (hs : s ≤ p.length) :
    ∃ n, nextState p lps s char = some n ∧ n ≤ p.length ∧ n ≤ s + 1 ∧
      (s = p.length → n = p.length) := by
  unfold nextState
  by_cases h1 : s < p.length ∧ charAt p s = some char
  · rw [if_pos h1]
    exact ⟨s + 1, rfl, by omega, le_refl _, by omega⟩
  · rw [if_neg h1]
    by_cases h2 : s = p.length
    · rw [if_pos h2]
      exact ⟨p.length, rfl, le_refl _, by omega, fun _ => rfl⟩
    · rw [if_neg h2]
      obtain ⟨k2, hk2, hk2le⟩ := fallback_total (p := p) char hle s s (le_refl _)
      rw [hk2]
      refine ⟨_, rfl, ?_, ?_, fun h => absurd h h2⟩
      · simp only []
        split <;> omega
      · simp only []
        split <;> omega

/-! ## Plain objects as maps -/

theorem objGet_nil {κ ν : Type} [DecidableEq κ] (k : κ) :
    objGet ([] : List (κ × ν)) k = none := rfl

theorem objGet_cons {κ ν : Type} [DecidableEq κ] (e : κ × ν) (o : List (κ × ν)) (k : κ) :
    objGet (e :: o) k = if e.1 = k then some e.2 else objGet o k := by
  unfold objGet
  by_cases h : e.1 = k <;> simp [List.find?_cons, h]

theorem objGet_replace {κ ν : Type} [DecidableEq κ] (o : List (κ × ν)) (k k2 : κ) (v : ν) :
    objGet (o.map (fun e => if e.1 = k then (k, v) else e)) k2 =
      if k2 = k then (objGet o k).map (fun _ => v) else objGet o k2 := by
  induction o with
  | nil => simp [objGet_nil]
  | cons e o ih =>
    rw [List.map_cons, objGet_cons, ih]
    by_cases hk : k2 = k
    · subst hk
      by_cases he : e.1 = k2
      · simp [he, objGet_cons]
      · simp [he, objGet_cons]
    · by_cases he : e.1 = k
      · have : ¬ e.1 = k2 := fun h => hk (by rw [← h, he])
        have hk' : ¬ k = k2 := fun h => hk h.symm
        simp [he, hk, hk', this, objGet_cons]
      · simp [he, hk, objGet_cons]

theorem objGet_append_one {κ ν : Type} [DecidableEq κ] (o : List (κ × ν)) (k k2 : κ) (v : ν) :
    objGet (o ++ [(k, v)]) k2 =
      if (objGet o k2).isSome then objGet o k2 else if k2 = k then some v else none := by
  induction o with
  | nil =>
    rw [List.nil_append, objGet_cons, objGet_nil]
    by_cases h : k2 = k
    · subst h
      simp
    · have : ¬ k = k2 := fun h2 => h h2.symm
      simp [h, this]
  | cons e o ih =>
    rw [List.cons_append, objGet_cons, objGet_cons, ih]
    by_cases he : e.1 = k2 <;> simp [he]

theorem objGet_isSome_iff {κ ν : Type} [DecidableEq κ] (o : List (κ × ν)) (k : κ) :
    (objGet o k).isSome = o.any (fun e => decide (e.1 = k)) := by
  induction o with
  | nil => simp [objGet_nil]
  | cons e o ih =>
    rw [objGet_cons, List.any_cons, ← ih]
    by_cases he : e.1 = k <;> simp [he]

/-- Reading a key after a write: the written value at that key, the old one elsewhere. -/
theorem objGet_objSet {κ ν : Type} [DecidableEq κ] (o : List (κ × ν)) (k k2 : κ) (v : ν) :
    objGet (objSet o k v) k2 = if k2 = k then some v else objGet o k2 := by
  unfold objSet
  by_cases h : o.any (fun e => decide (e.1 = k)) = true
  · rw [if_pos h, objGet_replace]
    by_cases hk : k2 = k
    · rw [if_pos hk, if_pos hk]
      rw [← objGet_isSome_iff] at h
      cases hg : objGet o k with
      | none => simp [hg] at h
      | some x => rfl
    · rw [if_neg hk, if_neg hk]
  · rw [if_neg h, objGet_append_one]
    by_cases hk : k2 = k
    · subst hk
      rw [← objGet_isSome_iff] at h
      simp [h]
    · rw [if_neg hk, if_neg hk]
      cases hg : objGet o k2 <;> simp

/-! ## The table loops of `buildDFA` -/

/-- The row loop returns when every entry is defined; the finished row maps each
character of the loop to its `nextState`, and one transition is pushed per character. -/
theorem rowLoop_spec (p : JSString) (lps : List Nat) (s : Nat) :
    ∀ (chars : List JSString) (row : List (JSString × Nat)) (ts : List DFATransition),
    (∀ c, c ∈ chars → ∃ n, nextState p lps s c = some n) →
    ∃ row2, rowLoop p lps s chars row ts = some (row2,
        ts ++ chars.map (fun c =>
          { «from» := s, «to» := (nextState p lps s c).getD 0, char := c })) ∧
      ∀ c, objGet row2 c = if c ∈ chars then nextState p lps s c else objGet row c := by
  intro chars
  induction chars with
  | nil =>
    intro row ts _
    exact ⟨row, by simp [rowLoop], by simp⟩
  | cons c cs ih =>
    intro row ts hdef
    obtain ⟨n, hn⟩ := hdef c (List.mem_cons_self _ _)
    obtain ⟨row2, hrow2, hget⟩ := ih (objSet row c n)
      (ts ++ [{ «from» := s, «to» := n, char := c }])
      (fun c2 hc2 => hdef c2 (List.mem_cons_of_mem _ hc2))
    refine ⟨row2, ?_, ?_⟩
    · rw [rowLoop, hn]
      simp only []
      rw [hrow2]
      simp [hn]
    · intro c2
      rw [hget c2, objGet_objSet]
      by_cases h1 : c2 ∈ cs
      · simp [h1]
      · by_cases h2 : c2 = c
        · subst h2
          simp [h1, hn]
        · simp [h1, h2]

/-- The state loop returns when every entry is defined; the finished table has, for
each state of the loop, a row holding exactly the `nextState` of the alphabet characters. -/
theorem tableLoop_spec (p : JSString) (lps : List Nat) (alphabet : List JSString) :
    ∀ (sts : List Nat) (table : TransitionTable) (ts : List DFATransition),
    (∀ s, s ∈ sts → ∀ c, c ∈ alphabet → ∃ n, nextState p lps s c = some n) →
    ∃ table2, tableLoop p lps alphabet sts table ts =
        some (table2, ts ++ flatTransitions p lps alphabet sts) ∧
      ∀ s, (s ∈ sts → ∃ row, objGet table2 s = some row ∧
          ∀ c, objGet row c = if c ∈ alphabet then nextState p lps s c else none) ∧
        (s ∉ sts → objGet table2 s = objGet table s) := by
  intro sts
  induction sts with
  | nil =>
    intro table ts _
    exact ⟨table, by simp [tableLoop, flatTransitions], by simp⟩
  | cons s0 rest ih =>
    intro table ts hdef
    obtain ⟨row, hrow, hget⟩ := rowLoop_spec p lps s0 alphabet [] ts
      (hdef s0 (List.mem_cons_self _ _))
    obtain ⟨table2, htab2, hget2⟩ := ih (objSet table s0 row)
      (ts ++ alphabet.map (fun c =>
          { «from» := s0, «to» := (nextState p lps s0 c).getD 0, char := c }))
      (fun s hs => hdef s (List.mem_cons_of_mem _ hs))
    refine ⟨table2, ?_, ?_⟩
    · rw [tableLoop, hrow]
      simp only []
      rw [htab2]
      simp [flatTransitions]
    · intro s
      by_cases hs : s ∈ rest
      · refine ⟨fun _ => (hget2 s).1 hs, fun h => absurd (List.mem_cons_of_mem _ hs) h⟩
      · by_cases h0 : s = s0
        · subst h0
          refine ⟨fun _ => ⟨row, ?_, ?_⟩, fun h => absurd (List.mem_cons_self _ _) h⟩
          · rw [(hget2 s).2 hs, objGet_objSet, if_pos rfl]
          · intro c
            rw [hget c, objGet_nil]
        · refine ⟨fun h => ?_, fun _ => ?_⟩
          · rcases List.mem_cons.1 h with h | h
            · exact absurd h h0
            · exact absurd h hs
          · rw [(hget2 s).2 hs, objGet_objSet, if_neg h0]

/-- For a non-empty pattern `buildDFA` returns: the failure table is computed, the
table has a row for exactly the states `0..m`, and each row maps exactly the alphabet
characters, each to its `nextState`. -/
theorem buildDFA_spec (p sample : JSString) (hne : p ≠ []) :
    ∃ lps table, computeFailureFunction p = some lps ∧ lps.length = p.length ∧
      (∀ j, j < p.length → IsLongest j p (p.take (j + 1)) (lps.getD j 0)) ∧
      buildDFA p sample = some
        { states := buildStates p.length,
          transitions := flatTransitions p lps (buildAlphabet p sample)
            (List.range (p.length + 1)),
          transitionTable := table,
          alphabet := buildAlphabet p sample } ∧
      ∀ s, (s ≤ p.length → ∃ row, objGet table s = some row ∧
          ∀ c, objGet row c =
            if c ∈ buildAlphabet p sample then nextState p lps s c else none) ∧
        (p.length < s → objGet table s = none) := by
  obtain ⟨lps, hlps, hlen, htab⟩ := computeFailureFunction_spec p
  have hle := table_le htab hlen
  obtain ⟨table, htable, hget⟩ := tableLoop_spec p lps (buildAlphabet p sample)
    (List.range (p.length + 1)) [] []
    (fun s hs c _ => by
      obtain ⟨n, hn, _⟩ := nextState_total (p := p) c hle
        (by simpa [Nat.lt_succ_iff] using hs : s ≤ p.length)
      exact ⟨n, hn⟩)
  refine ⟨lps, table, hlps, hlen, htab, ?_, ?_⟩
  · unfold buildDFA
    have : p.isEmpty = false := by
      cases p with
      | nil => exact absurd rfl hne
      | cons _ _ => rfl
    simp only [this, Bool.false_eq_true, if_false, hlps, htable, List.nil_append]
  · intro s
    refine ⟨fun hs => (hget s).1 (by simpa [Nat.lt_succ_iff] using hs), fun hs => ?_⟩
    rw [(hget s).2 (by simp; omega)]
    rfl

/-! ## The simulation loop -/

/-- The steps and matches already pushed are a prefix of the result of the loop. -/
theorem simLoop_acc (m : Nat) (tt : TransitionTable) (al : List JSString) :
    ∀ (rest : List Nat) (i : Nat) (st : Option Nat) (steps : List SimulationStep)
      (found : List Int),
    simLoop m tt al rest i st steps found =
      (simLoop m tt al rest i st [] []).map (fun r => (steps ++ r.1, found ++ r.2)) := by
  intro rest
  induction rest with
  | nil =>
    intro i st steps found
    simp [simLoop]
  | cons u rest ih =>
    intro i st steps found
    rw [simLoop, simLoop]
    cases hl : lookupNext tt al st [u] with
    | none => rfl
    | some nx =>
      simp only []
      rw [ih (i + 1) nx (steps ++ [mkStep m i [u] st nx]),
        ih (i + 1) nx ([] ++ [mkStep m i [u] st nx])]
      cases simLoop m tt al rest (i + 1) nx [] [] with
      | none => rfl
      | some r =>
        by_cases hm : nx = some m <;> simp [hm]

/-- One iteration of the loop, with the rest of the run after it. -/
theorem simLoop_cons (m : Nat) (tt : TransitionTable) (al : List JSString) (u : Nat)
    (rest : List Nat) (i : Nat) (st : Option Nat) :
    simLoop m tt al (u :: rest) i st [] [] =
      (lookupNext tt al st [u]).bind (fun nx =>
        (simLoop m tt al rest (i + 1) nx [] []).map (fun r =>
          (mkStep m i [u] st nx :: r.1,
            (if nx = some m then [(i : Int) - (m : Int) + 1] else []) ++ r.2))) := by
  rw [simLoop]
  cases hl : lookupNext tt al st [u] with
  | none => rfl
  | some nx =>
    simp only [Option.some_bind]
    rw [simLoop_acc]
    cases simLoop m tt al rest (i + 1) nx [] [] with
    | none => rfl
    | some r =>
      by_cases hm : nx = some m <;> simp [hm]

/-- On the table of `buildDFA` the lookup of `simulateDFA` never fails from a state in
`0..m`, and it yields the move `dfaNext`. -/
theorem lookupNext_built {p : JSString} {lps : List Nat} {al : List JSString}
    {table : TransitionTable} (hle : ∀ j, lps.getD j 0 ≤ j)
    (hget : ∀ s, s ≤ p.length → ∃ row, objGet table s = some row ∧
      ∀ c, objGet row c = if c ∈ al then nextState p lps s c else none)
    {s : Nat} (hs : s ≤ p.length) (u : Nat) :
    lookupNext table al (some s) [u] = some (some (dfaNext p lps al s u)) ∧
      dfaNext p lps al s u ≤ p.length := by
  unfold lookupNext dfaNext
  by_cases hu : [u] ∈ al
  · obtain ⟨row, hrow, hc⟩ := hget s hs
    obtain ⟨n, hn, hnm, _⟩ := nextState_total (p := p) [u] hle hs
    have : al.contains [u] = true := by simpa using hu
    simp [this, hu, hrow, hc, hn, hnm]
  · have : al.contains [u] = false := by simpa using hu
    simp [this, hu]

theorem dfaRun_le {p : JSString} {lps : List Nat} {al : List JSString}
    (hle : ∀ j, lps.getD j 0 ≤ j) : ∀ (w : List Nat) (s : Nat), s ≤ p.length →
    dfaRun p lps al s w ≤ p.length := by
  intro w
  induction w with
  | nil => intro s hs; simpa [dfaRun] using hs
  | cons u w ih =>
    intro s hs
    have : dfaRun p lps al s (u :: w) = dfaRun p lps al (dfaNext p lps al s u) w := rfl
    rw [this]
    apply ih
    unfold dfaNext
    split
    · obtain ⟨n, hn, hnm, _⟩ := nextState_total (p := p) [u] hle hs
      simp [hn, hnm]
    · omega

/-- The run of `simulateDFA` on a table of `buildDFA`, from a state in `0..m`: it
returns, with one step per code unit and the matches at the steps that reach `m`. -/
theorem simLoop_built {p : JSString} {lps : List Nat} {al : List JSString}
    {table : TransitionTable} (hle : ∀ j, lps.getD j 0 ≤ j)
    (hget : ∀ s, s ≤ p.length → ∃ row, objGet table s = some row ∧
      ∀ c, objGet row c = if c ∈ al then nextState p lps s c else none) :
    ∀ (rest : List Nat) (i s : Nat), s ≤ p.length →
    simLoop p.length table al rest i (some s) [] [] = some
      ((List.range rest.length).map (fun k =>
          mkStep p.length (i + k) [rest.getD k 0]
            (some (dfaRun p lps al s (rest.take k)))
            (some (dfaRun p lps al s (rest.take (k + 1))))),
        ((List.range rest.length).filter (fun k =>
          decide (dfaRun p lps al s (rest.take (k + 1)) = p.length))).map
            (fun k => ((i + k : Nat) : Int) - (p.length : Int) + 1)) := by
  intro rest
  induction rest with
  | nil =>
    intro i s _
    simp [simLoop]
  | cons u rest ih =>
    intro i s hs
    obtain ⟨hl, hn⟩ := lookupNext_built (p := p) hle hget hs u
    rw [simLoop_cons, hl, Option.some_bind, ih (i + 1) _ hn]
    have hrun : ∀ k, dfaRun p lps al s (u :: rest.take k) =
        dfaRun p lps al (dfaNext p lps al s u) (rest.take k) := fun _ => rfl
    simp only [Option.map_some', List.length_cons, List.range_succ_eq_map, List.map_cons,
      List.map_map, List.filter_cons, List.filter_map, List.take_succ_cons, hrun]
    have h0 : dfaRun p lps al s [] = s := rfl
    have h1 : dfaRun p lps al (dfaNext p lps al s u) [] = dfaNext p lps al s u := rfl
    congr 1
    refine Prod.ext ?_ ?_
    · simp only [List.take_zero, h0, h1, List.getD_cons_zero, Nat.add_zero, List.cons.injEq,
        true_and]
      apply List.map_congr_left
      intro k _
      simp only [Function.comp, List.getD_cons_succ, hrun]
      congr 1
      omega
    · simp only [List.take_zero, h1]
      by_cases hm : dfaNext p lps al s u = p.length
      · simp only [hm, decide_True, if_true, List.map_cons, List.map_map, Nat.add_zero,
          List.singleton_append, List.cons.injEq, true_and]
        apply List.map_congr_left
        intro k _
        simp only [Function.comp]
        push_cast
        ring
      · have hm2 : ¬ (some (dfaNext p lps al s u) = some p.length) := by simpa using hm
        simp only [hm, hm2, decide_False, if_false, Bool.false_eq_true, List.map_map, List.nil_append]
        apply List.map_congr_left
        intro k _
        simp only [Function.comp]
        push_cast
        ring

/-- The run of `buildDFA` followed by `simulateDFA`, for a non-empty pattern: both
return, and the result lists one step per code unit of the text. -/
theorem runDFA_spec (p sample text : JSString) (hne : p ≠ []) :
    ∃ lps, computeFailureFunction p = some lps ∧ lps.length = p.length ∧
      (∀ j, j < p.length → IsLongest j p (p.take (j + 1)) (lps.getD j 0)) ∧
      runDFA p sample text = some
        { steps := (List.range text.length).map (fun k =>
            mkStep p.length k [text.getD k 0]
              (some (dfaRun p lps (buildAlphabet p sample) 0 (text.take k)))
              (some (dfaRun p lps (buildAlphabet p sample) 0 (text.take (k + 1))))),
          «matches» := ((List.range text.length).filter (fun k =>
            decide (dfaRun p lps (buildAlphabet p sample) 0 (text.take (k + 1)) = p.length))).map
              (fun (k : Nat) => (k : Int) - (p.length : Int) + 1),
          totalComparisons := text.length } := by
  obtain ⟨lps, table, hlps, hlen, htab, hbuild, hget⟩ := buildDFA_spec p sample hne
  refine ⟨lps, hlps, hlen, htab, ?_⟩
  have hsim := simLoop_built (p := p) (table_le htab hlen) (fun s hs => (hget s).1 hs)
    text 0 0 (Nat.zero_le _)
  unfold runDFA
  rw [hbuild]
  simp only []
  unfold simulateDFA
  rw [hsim]
  simp

theorem take_eq_nil_of_suffix_nil {p : JSString} {k : Nat} (hk : k ≤ p.length)
    (h : p.take k <:+ ([] : JSString)) : k = 0 := by
  have := h.length_le
  rw [length_take_le hk] at this
  simpa using this

theorem isLongest_self (p : JSString) {s : Nat} (hs : s ≤ p.length) :
    IsLongest p.length p (p.take s) s := by
  refine ⟨hs, List.suffix_refl _, ?_⟩
  intro j hj hjs
  have := hjs.length_le
  rwa [length_take_le hj, length_take_le hs] at this

theorem take_succ_getD (text : JSString) {j : Nat} (hj : j < text.length) :
    text.take (j + 1) = text.take j ++ [text.getD j 0] := by
  rw [List.take_succ]
  simp [List.getElem?_eq_getElem hj]

theorem dfaRun_snoc (p : JSString) (lps : List Nat) (al : List JSString) (s : Nat)
    (w : List Nat) (u : Nat) :
    dfaRun p lps al s (w ++ [u]) = dfaNext p lps al (dfaRun p lps al s w) u := by
  simp [dfaRun, List.foldl_append]

/-- Soundness of the run, for every alphabet: a state below `m` is the length of a
prefix of the pattern that ends the text read so far, and state `m` is reached only
after the pattern has been read. -/
theorem dfaRun_sound {p : JSString} {lps : List Nat} (al : List JSString) (text : JSString)
    (hne : p ≠ []) (hlen : lps.length = p.length)
    (htab : ∀ j, j < p.length → IsLongest j p (p.take (j + 1)) (lps.getD j 0)) :
    ∀ j, j ≤ text.length →
      (dfaRun p lps al 0 (text.take j) < p.length ∧
          p.take (dfaRun p lps al 0 (text.take j)) <:+ text.take j) ∨
        (dfaRun p lps al 0 (text.take j) = p.length ∧ ∃ e, e ≤ j ∧ p <:+ text.take e) := by
  have hm : 0 < p.length := List.length_pos.2 hne
  intro j
  induction j with
  | zero =>
    intro _
    left
    simp [dfaRun, hm]
  | succ j ih =>
    intro hj
    have hjl : j < text.length := by omega
    rw [take_succ_getD text hjl, dfaRun_snoc]
    generalize hu : text.getD j 0 = u
    rcases ih (by omega) with ⟨hlt, hsuf⟩ | ⟨heq, e, he, hocc⟩
    · generalize hs : dfaRun p lps al 0 (text.take j) = s at hlt hsuf
      unfold dfaNext
      by_cases hmem : [u] ∈ al
      · rw [if_pos hmem]
        obtain ⟨n, hn, hn1, hn2, hn3⟩ :=
          nextState_spec (u := u) htab hlt (isLongest_self p (by omega))
        rw [hn, Option.getD_some]
        have hsuf2 : p.take n <:+ text.take j ++ [u] :=
          hn2.trans ((suffix_snoc_iff _ _ _ _).2 ⟨hsuf, rfl⟩)
        by_cases hnm : n = p.length
        · right
          refine ⟨hnm, j + 1, le_refl _, ?_⟩
          rw [take_succ_getD text hjl, hu]
          rw [hnm, List.take_length] at hsuf2
          exact hsuf2
        · left
          exact ⟨by omega, hsuf2⟩
      · rw [if_neg hmem]
        left
        exact ⟨hm, by simp⟩
    · rw [heq]
      unfold dfaNext
      by_cases hmem : [u] ∈ al
      · rw [if_pos hmem]
        obtain ⟨n, hn, _, _, hn3⟩ := nextState_total (p := p) [u] (table_le htab hlen)
          (le_refl p.length)
        rw [hn, Option.getD_some, hn3 rfl]
        right
        exact ⟨rfl, e, by omega, hocc⟩
      · rw [if_neg hmem]
        left
        exact ⟨hm, by simp⟩

/-- The pattern ends at index `e` of the text exactly when it occurs at `e - m`. -/
theorem suffix_take_iff (p text : JSString) {e : Nat} (he : e ≤ text.length) :
    p <:+ text.take e ↔ p.length ≤ e ∧ OccursAt p text (e - p.length) := by
  unfold OccursAt
  constructor
  · intro h
    have hle := h.length_le
    rw [length_take_le he] at hle
    refine ⟨hle, ?_⟩
    have h2 := List.suffix_iff_eq_drop.1 h
    rw [length_take_le he, List.drop_take, Nat.sub_sub_self hle] at h2
    exact h2.symm
  · rintro ⟨hle, h⟩
    rw [List.suffix_iff_eq_drop, length_take_le he, List.drop_take, Nat.sub_sub_self hle]
    exact h.symm

theorem absorbed_succ (p : JSString) (al : List JSString) (text : JSString) (j : Nat) :
    Absorbed p al text (j + 1) ↔
      p <:+ text.take (j + 1) ∨ (Absorbed p al text j ∧ [text.getD j 0] ∈ al) := by
  constructor
  · rintro ⟨e, he, hocc, hch⟩
    by_cases hej : e = j + 1
    · left
      rw [← hej]
      exact hocc
    · right
      exact ⟨⟨e, by omega, hocc, fun i hi hij => hch i hi (by omega)⟩,
        hch j (by omega) (by omega)⟩
  · rintro (h | ⟨⟨e, he, hocc, hch⟩, hu⟩)
    · exact ⟨j + 1, le_refl _, h, fun i hi hij => by omega⟩
    · refine ⟨e, by omega, hocc, fun i hi hij => ?_⟩
      by_cases hij2 : i < j
      · exact hch i hi hij2
      · have : i = j := by omega
        rw [this]
        exact hu

theorem mem_of_take_suffix_snoc {p w : JSString} {u k : Nat} (hk : 0 < k)
    (hkm : k ≤ p.length) (h : p.take k <:+ w ++ [u]) : u ∈ p := by
  obtain ⟨i, rfl⟩ : ∃ i, k = i + 1 := ⟨k - 1, by omega⟩
  obtain ⟨v, hv⟩ := get_of_lt (p := p) (k := i) (by omega)
  rw [take_succ_of_get hv, suffix_snoc_iff] at h
  rw [← h.2]
  exact List.get?_mem hv

/-- Exactness of the run when every code unit of the pattern is an alphabet character:
the state is `m` from the first occurrence of the pattern on, for as long as the units
read stay in the alphabet, and otherwise it is the length of the longest prefix of the
pattern that ends the text read so far. -/
theorem dfaRun_exact {p : JSString} {lps : List Nat} (al : List JSString) (text : JSString)
    (hne : p ≠ []) (hlen : lps.length = p.length)
    (htab : ∀ j, j < p.length → IsLongest j p (p.take (j + 1)) (lps.getD j 0))
    (hal : ∀ u, u ∈ p → [u] ∈ al) :
    ∀ j, j ≤ text.length →
      (Absorbed p al text j → dfaRun p lps al 0 (text.take j) = p.length) ∧
      (¬ Absorbed p al text j →
        IsLongest p.length p (text.take j) (dfaRun p lps al 0 (text.take j)) ∧
          dfaRun p lps al 0 (text.take j) < p.length) := by
  have hm : 0 < p.length := List.length_pos.2 hne
  intro j
  induction j with
  | zero =>
    intro _
    constructor
    · rintro ⟨e, he, hocc, _⟩
      have he0 : e = 0 := by omega
      subst he0
      simp at hocc
      exact absurd hocc hne
    · intro _
      refine ⟨⟨Nat.zero_le _, by simp [dfaRun], ?_⟩, by simpa [dfaRun] using hm⟩
      intro k hk hks
      have : k = 0 := take_eq_nil_of_suffix_nil hk (by simpa using hks)
      simp [dfaRun, this]
  | succ j ih =>
    intro hj
    have hjl : j < text.length := by omega
    obtain ⟨ih1, ih2⟩ := ih (by omega)
    rw [absorbed_succ, take_succ_getD text hjl, dfaRun_snoc]
    generalize hu : text.getD j 0 = u
    generalize hs : dfaRun p lps al 0 (text.take j) = s at ih1 ih2
    by_cases hmem : [u] ∈ al
    · by_cases habs : Absorbed p al text j
      · have hsm := ih1 habs
        have hnext : dfaNext p lps al s u = p.length := by
          unfold dfaNext
          rw [if_pos hmem]
          obtain ⟨n, hn, _, _, hn3⟩ := nextState_total (p := p) (s := s) [u]
            (table_le htab hlen) (by omega)
          rw [hn, Option.getD_some, hn3 hsm]
        refine ⟨fun _ => hnext, fun hnot => ?_⟩
        exact absurd (Or.inr ⟨habs, hmem⟩) hnot
      · obtain ⟨hlong, hlt⟩ := ih2 habs
        obtain ⟨n, hn, hn1, hn2, hn3⟩ := nextState_spec (u := u) htab hlt hlong
        have hnext : dfaNext p lps al s u = n := by
          unfold dfaNext
          rw [if_pos hmem, hn, Option.getD_some]
        rw [hnext]
        constructor
        · rintro (hocc | ⟨h, _⟩)
          · have := hn3 p.length (le_refl _) (by rwa [List.take_length])
            omega
          · exact absurd h habs
        · intro hnot
          refine ⟨⟨hn1, hn2, hn3⟩, ?_⟩
          by_contra hge
          have hnm : n = p.length := by omega
          apply hnot
          left
          rw [hnm, List.take_length] at hn2
          exact hn2
    · have hnext : dfaNext p lps al s u = 0 := by
        unfold dfaNext
        rw [if_neg hmem]
      have hno : ∀ k, 0 < k → k ≤ p.length → ¬ p.take k <:+ text.take j ++ [u] :=
        fun k hk hkm h => hmem (hal u (mem_of_take_suffix_snoc hk hkm h))
      rw [hnext]
      constructor
      · rintro (hocc | ⟨_, h⟩)
        · exact absurd (by rwa [List.take_length]) (hno p.length hm (le_refl _))
        · exact absurd h hmem
      · intro _
        refine ⟨⟨Nat.zero_le _, by simp, ?_⟩, hm⟩
        intro k hk hks
        by_contra hpos
        exact hno k (by omega) hk hks

/-! ## The alphabet -/

theorem mem_firstOccurrences {α : Type} [DecidableEq α] (l : List α) (x : α) :
    x ∈ firstOccurrences l ↔ x ∈ l := by
  induction l with
  | nil => simp [firstOccurrences]
  | cons y ys ih =>
    simp only [firstOccurrences, List.mem_cons, List.mem_filter, ih, decide_eq_true_eq]
    by_cases h : x = y <;> simp [h]

theorem nodup_firstOccurrences {α : Type} [DecidableEq α] (l : List α) :
    (firstOccurrences l).Nodup := by
  induction l with
  | nil => simp [firstOccurrences]
  | cons y ys ih =>
    simp only [firstOccurrences, List.nodup_cons, List.mem_filter, decide_eq_true_eq]
    exact ⟨fun h => h.2 rfl, ih.filter _⟩

theorem firstOccurrences_filter {α : Type} [DecidableEq α] (P : α → Bool) (l : List α) :
    firstOccurrences (l.filter P) = (firstOccurrences l).filter P := by
  induction l with
  | nil => simp [firstOccurrences]
  | cons y ys ih =>
    by_cases hy : P y = true
    · rw [List.filter_cons_of_pos hy]
      simp only [firstOccurrences]
      rw [List.filter_cons_of_pos hy, ih, List.filter_filter, List.filter_filter]
      congr 1
      apply List.filter_congr
      intro x _
      exact Bool.and_comm _ _
    · rw [List.filter_cons_of_neg hy]
      simp only [firstOccurrences]
      rw [List.filter_cons_of_neg hy, ih, List.filter_filter]
      apply List.filter_congr
      intro x _
      by_cases hx : x = y
      · subst hx
        simp [hy]
      · simp [hx]

/-- The alphabet loop appends to the set and to the pushed array the characters it
keeps, each once, in order of first occurrence. -/
theorem addChars_spec : ∀ (cs set out : List JSString),
    addChars cs set out =
      (set ++ firstOccurrences (cs.filter (fun c => keepChar c && !set.contains c)),
        out ++ firstOccurrences (cs.filter (fun c => keepChar c && !set.contains c))) := by
  intro cs
  induction cs with
  | nil => intro set out; simp [addChars, firstOccurrences]
  | cons c cs ih =>
    intro set out
    rw [addChars]
    by_cases hc : (keepChar c && !set.contains c) = true
    · rw [if_pos hc, ih,
        List.filter_cons_of_pos (p := fun x => keepChar x && !set.contains x) hc]
      simp only [firstOccurrences]
      have hfil : cs.filter (fun x => keepChar x && !(set ++ [c]).contains x) =
          (cs.filter (fun x => keepChar x && !set.contains x)).filter
            (fun y => decide (y ≠ c)) := by
        rw [List.filter_filter]
        apply List.filter_congr
        intro x _
        by_cases hx : x = c
        · subst hx
          simp
        · simp [hx, Bool.and_comm]
      rw [hfil, firstOccurrences_filter]
      simp
    · rw [if_neg hc, ih,
        List.filter_cons_of_neg (p := fun x => keepChar x && !set.contains x) hc]

theorem strLt_irrefl : ∀ a : JSString, strLt a a = false := by
  intro a
  induction a with
  | nil => rfl
  | cons x xs ih => simp [strLt, ih]

theorem strLt_trans : ∀ a b c : JSString, strLt a b = true → strLt b c = true →
    strLt a c = true := by
  intro a
  induction a with
  | nil =>
    intro b c hab hbc
    cases b with
    | nil => simp [strLt] at hab
    | cons y ys =>
      cases c with
      | nil => simp [strLt] at hbc
      | cons z zs => simp [strLt]
  | cons x xs ih =>
    intro b c hab hbc
    cases b with
    | nil => simp [strLt] at hab
    | cons y ys =>
      cases c with
      | nil => simp [strLt] at hbc
      | cons z zs =>
        simp only [strLt, Bool.or_eq_true, decide_eq_true_eq, Bool.and_eq_true,
          beq_iff_eq] at hab hbc ⊢
        rcases hab with h1 | ⟨h1, h2⟩
        · rcases hbc with h3 | ⟨h3, _⟩
          · left; omega
          · left; omega
        · rcases hbc with h3 | ⟨h3, h4⟩
          · left; omega
          · right
            exact ⟨by omega, ih ys zs h2 h4⟩

theorem strLt_connex : ∀ a b : JSString, strLt a b = false → strLt b a = false → a = b := by
  intro a
  induction a with
  | nil =>
    intro b hab _
    cases b with
    | nil => rfl
    | cons y ys => simp [strLt] at hab
  | cons x xs ih =>
    intro b hab hba
    cases b with
    | nil => simp [strLt] at hba
    | cons y ys =>
      simp only [strLt, Bool.or_eq_false_iff, decide_eq_false_iff_not, Bool.and_eq_false_imp,
        beq_iff_eq] at hab hba
      have hxy : x = y := by omega
      subst hxy
      rw [ih ys (hab.2 rfl) (hba.2 rfl)]

theorem strLt_asymm (a b : JSString) (h : strLt a b = true) : strLt b a = false := by
  by_contra hne
  have hba : strLt b a = true := by simpa using hne
  have := strLt_trans a b a h hba
  rw [strLt_irrefl] at this
  exact absurd this (by simp)

theorem strLe_trans (a b c : JSString) (hab : strLt b a = false) (hbc : strLt c b = false) :
    strLt c a = false := by
  by_contra hne
  have hca : strLt c a = true := by simpa using hne
  by_cases h1 : strLt a b = true
  · have := strLt_trans c a b hca h1
    rw [hbc] at this
    exact absurd this (by simp)
  · have hab2 : a = b := strLt_connex a b (by simpa using h1) hab
    subst hab2
    rw [hbc] at hca
    exact absurd hca (by simp)

theorem perm_sortInsert (x : JSString) (l : List JSString) :
    (sortInsert x l).Perm (x :: l) := by
  induction l with
  | nil => exact List.Perm.refl _
  | cons y ys ih =>
    rw [sortInsert]
    split
    · exact ((List.Perm.cons y ih).trans (List.Perm.swap x y ys))
    · exact List.Perm.refl _

theorem perm_jsSort (l : List JSString) : (jsSort l).Perm l := by
  induction l with
  | nil => exact List.Perm.refl _
  | cons x xs ih =>
    rw [jsSort]
    exact (perm_sortInsert x _).trans (List.Perm.cons x ih)

theorem sorted_sortInsert (x : JSString) (l : List JSString)
    (h : l.Pairwise (fun a b => strLt b a = false)) :
    (sortInsert x l).Pairwise (fun a b => strLt b a = false) := by
  induction l with
  | nil => simp [sortInsert]
  | cons y ys ih =>
    rw [sortInsert]
    rw [List.pairwise_cons] at h
    by_cases hyx : strLt y x = true
    · rw [if_pos hyx, List.pairwise_cons]
      refine ⟨?_, ih h.2⟩
      intro z hz
      rcases List.mem_cons.1 ((perm_sortInsert x ys).mem_iff.1 hz) with hzx | hzy
      · rw [hzx]
        exact strLt_asymm y x hyx
      · exact h.1 z hzy
    · rw [if_neg hyx, List.pairwise_cons]
      have hyx2 : strLt y x = false := by simpa using hyx
      refine ⟨?_, List.pairwise_cons.2 h⟩
      intro z hz
      rcases List.mem_cons.1 hz with hzy | hzy
      · rw [hzy]
        exact hyx2
      · exact strLe_trans x y z hyx2 (h.1 z hzy)

theorem sorted_jsSort (l : List JSString) :
    (jsSort l).Pairwise (fun a b => strLt b a = false) := by
  induction l with
  | nil => simp [jsSort]
  | cons x xs ih =>
    rw [jsSort]
    exact sorted_sortInsert x _ ih

/-- Sorting an array of distinct strings leaves it strictly ascending in code units. -/
theorem strict_jsSort (l : List JSString) (hnd : l.Nodup) :
    (jsSort l).Pairwise (fun a b => strLt a b = true) := by
  have h1 := sorted_jsSort l
  have h2 : (jsSort l).Pairwise (fun a b => a ≠ b) := (perm_jsSort l).nodup_iff.2 hnd
  refine (h1.and h2).imp ?_
  rintro a b ⟨hab, hne⟩
  by_contra h
  exact hne (strLt_connex a b (by simpa using h) hab)

theorem buildAlphabet_eq (p t : JSString) :
    buildAlphabet p t = firstOccurrences ((codePoints p).filter keepChar) ++
      jsSort (firstOccurrences ((codePoints t).filter (fun c =>
        keepChar c && !(firstOccurrences ((codePoints p).filter keepChar)).contains c))) := by
  have hA : (codePoints p).filter (fun c => keepChar c && !([] : List JSString).contains c) =
      (codePoints p).filter keepChar := by
    apply List.filter_congr
    intro x _
    simp
  unfold buildAlphabet
  simp only [addChars_spec, List.nil_append, hA]

/-- The alphabet of `buildDFA` follows the alphabet rule, the text-only characters
being in ascending order of their UTF-16 code units. -/
theorem buildAlphabet_rule (p t : JSString) :
    AlphabetRule (fun a b => strLt a b = true) p t (buildAlphabet p t) := by
  refine ⟨_, buildAlphabet_eq p t, strict_jsSort _ (nodup_firstOccurrences _), ?_⟩
  intro c
  rw [(perm_jsSort _).mem_iff, mem_firstOccurrences, List.mem_filter]
  simp only [Bool.and_eq_true, Bool.not_eq_true', List.contains_eq_any_beq, List.any_eq_false,
    beq_iff_eq, mem_firstOccurrences, List.mem_filter]
  constructor
  · rintro ⟨h1, h2, h3⟩
    refine ⟨h1, h2, fun hcp => ?_⟩
    exact h3 c ⟨hcp, h2⟩ rfl
  · rintro ⟨h1, h2, h3⟩
    refine ⟨h1, h2, ?_⟩
    rintro x ⟨hx, _⟩ rfl
    exact h3 hx

theorem keepChar_unit (u : Nat) : keepChar [u] = !isWhiteSpace u := by
  unfold keepChar trim
  cases h : isWhiteSpace u <;> simp [List.dropWhile, h]

theorem codePoints_of_no_pair : ∀ p : JSString, hasSurrogatePair p = false →
    codePoints p = p.map (fun u => [u])
  | [], _ => rfl
  | [_], _ => rfl
  | u :: v :: rest, h => by
    rw [hasSurrogatePair, Bool.or_eq_false_iff] at h
    rw [codePoints, if_neg (by simp [h.1]), codePoints_of_no_pair (v :: rest) h.2]
    rfl

/-- A pattern with no whitespace character and no surrogate pair has each of its code
units, as a one-unit string, in the alphabet. -/
theorem units_in_alphabet (p sample : JSString) (hws : ∀ u, u ∈ p → isWhiteSpace u = false)
    (hsp : hasSurrogatePair p = false) : ∀ u, u ∈ p → [u] ∈ buildAlphabet p sample := by
  intro u hu
  rw [buildAlphabet_eq]
  apply List.mem_append_left
  rw [mem_firstOccurrences, List.mem_filter, codePoints_of_no_pair p hsp, keepChar_unit,
    hws u hu]
  exact ⟨List.mem_map.2 ⟨u, hu, rfl⟩, rfl⟩

/-! ## The failure function (C1) -/

theorem longestProperBorder_of_isLongest {p : JSString} {i v : Nat} (hi : i < p.length)
    (h : IsLongest i p (p.take (i + 1)) v) : LongestProperBorder (p.take (i + 1)) v := by
  obtain ⟨hv, hsuf, hmax⟩ := h
  have hlen : (p.take (i + 1)).length = i + 1 := length_take_le (by omega)
  have htake : ∀ k, k ≤ i + 1 → (p.take (i + 1)).take k = p.take k := by
    intro k hk
    rw [List.take_take, Nat.min_eq_left hk]
  constructor
  · refine ⟨p.take v, ?_, hsuf, ?_, ?_⟩
    · refine ⟨(p.take (i + 1)).drop v, ?_⟩
      rw [← htake v (by omega)]
      exact List.take_append_drop _ _
    · rw [hlen, length_take_le (by omega)]
      omega
    · exact length_take_le (by omega)
  · rintro w ⟨t, ht⟩ hws hwl
    rw [hlen] at hwl
    have hw : w = p.take w.length := by
      rw [← htake w.length (by omega), ← ht]
      simp
    apply hmax w.length (by omega)
    rw [← hw]
    exact hws

/-- C1: `computeFailureFunction` returns the classical prefix-function array. For every
pattern of length `m` and every index `i < m`, entry `i` of the result is the length of
the longest proper prefix of `pattern[0..i]` (inclusive) that is also a suffix of
`pattern[0..i]`; for "aabaaab" the array is `[0,1,0,1,2,2,3]`. -/
theorem C1_failure_is_prefix_function (pattern : JSString) :
    (∃ failure, computeFailureFunction pattern = some failure ∧
      failure.length = pattern.length ∧
      ∀ i, i < pattern.length →
        ∃ v, failure.get? i = some v ∧ LongestProperBorder (pattern.take (i + 1)) v) ∧
    computeFailureFunction (ofAscii "aabaaab") = some [0, 1, 0, 1, 2, 2, 3] := by
  refine ⟨?_, by decide⟩
  obtain ⟨lps, hlps, hlen, htab⟩ := computeFailureFunction_spec pattern
  refine ⟨lps, hlps, hlen, fun i hi => ⟨lps.getD i 0, ?_, ?_⟩⟩
  · simp [List.getElem?_eq_getElem (by omega : i < lps.length)]
  · exact longestProperBorder_of_isLongest hi (htab i hi)

/-- C1 at the pattern "abab": the last entry is `2`, the length of the border "ab". -/
theorem C1_failure_is_prefix_function_witness :
    ∃ failure, computeFailureFunction (ofAscii "abab") = some failure ∧
      failure.get? 3 = some 2 ∧ LongestProperBorder (ofAscii "abab") 2 := by
  obtain ⟨failure, hf, _, h⟩ := (C1_failure_is_prefix_function (ofAscii "abab")).1
  obtain ⟨v, hv, hb⟩ := h 3 (by decide)
  have hf2 : computeFailureFunction (ofAscii "abab") = some [0, 0, 1, 2] := by decide
  rw [hf2] at hf
  have hfe : failure = [0, 0, 1, 2] := (Option.some.inj hf).symm
  subst hfe
  have hv2 : v = 2 := by simpa using hv.symm
  subst hv2
  exact ⟨[0, 0, 1, 2], hf2, rfl, hb⟩

/-! ## Matches of the simulation (C2, C3) -/

/-- C2 fails on the code: `matches` holds indices at which the pattern does not occur.
Once state `m` is reached every further alphabet character keeps the run in `m`, and
each such step pushes `i - m + 1`. With pattern "aba" and text "ababa" the result is
`[0,1,2]`, although the pattern occurs at `0` and `2` only and not at `1`; on the text
"ababab" the result is `[0,1,2,3]`, the occurrences being `[0,2]`. -/
theorem C2_reports_non_occurrence :
    (∃ r, runDFA (ofAscii "aba") (ofAscii "ababa") (ofAscii "ababa") = some r ∧
      r.«matches» = [0, 1, 2] ∧ occurrences (ofAscii "aba") (ofAscii "ababa") = [0, 2] ∧
      ¬ OccursAt (ofAscii "aba") (ofAscii "ababa") 1) ∧
    (∃ r, runDFA (ofAscii "aba") (ofAscii "ababab") (ofAscii "ababab") = some r ∧
      r.«matches» = [0, 1, 2, 3] ∧ occurrences (ofAscii "aba") (ofAscii "ababab") = [0, 2]) := by
  refine ⟨⟨_, rfl, by decide, by decide, ?_⟩, ⟨_, rfl, by decide, by decide⟩⟩
  unfold OccursAt
  decide

/-- C3: for every non-empty pattern and every text in which the pattern does not occur
as a contiguous substring, `simulateDFA` over the DFA of `buildDFA` (any sample text)
returns `matches = []`, every step has `matched = false`, and there is one step per
code unit of the text. -/
theorem C3_no_match (pattern sample text : JSString) (hne : pattern ≠ [])
    (hno : ¬ pattern <:+: text) :
    ∃ r, runDFA pattern sample text = some r ∧ r.«matches» = [] ∧
      (∀ step, step ∈ r.steps → step.matched = false) ∧ r.steps.length = text.length := by
  obtain ⟨lps, _, hlen, htab, hrun⟩ := runDFA_spec pattern sample text hne
  have hnever : ∀ k, k < text.length →
      dfaRun pattern lps (buildAlphabet pattern sample) 0 (text.take (k + 1)) ≠
        pattern.length := by
    intro k hk heq
    rcases dfaRun_sound (buildAlphabet pattern sample) text hne hlen htab (k + 1) (by omega)
      with ⟨hlt, _⟩ | ⟨_, e, _, ⟨t, ht⟩⟩
    · omega
    · exact hno ⟨t, text.drop e, by rw [ht, List.take_append_drop]⟩
  refine ⟨_, hrun, ?_, ?_, by simp⟩
  · simp only [List.map_eq_nil_iff, List.filter_eq_nil_iff, List.mem_range, decide_eq_true_eq]
    exact hnever
  · intro step hstep
    simp only [List.mem_map, List.mem_range] at hstep
    obtain ⟨k, hk, rfl⟩ := hstep
    simpa [mkStep] using hnever k hk

/-- C3 at pattern "unity" and text "university": no match, and exactly 10 steps. -/
theorem C3_no_match_witness :
    ofAscii "unity" ≠ [] ∧ ¬ ofAscii "unity" <:+: ofAscii "university" ∧
    ∃ r, runDFA (ofAscii "unity") (ofAscii "university") (ofAscii "university") = some r ∧
      r.«matches» = [] ∧ (∀ step, step ∈ r.steps → step.matched = false) ∧
      r.steps.length = 10 :=
  ⟨by decide, by decide,
    C3_no_match (ofAscii "unity") (ofAscii "university") (ofAscii "university")
      (by decide) (by decide)⟩

/-! ## The table and the states of `buildDFA` (C4, C5, C6) -/

/-- C4: for every non-empty pattern of length `m` and every sample text, the transition
table of `buildDFA` is total: for every state `s` in `0..m` and every character `c` of
the returned alphabet, `transitionTable[s][c]` is defined and lies in `[0, m]`. -/
theorem C4_table_total (pattern sample : JSString) (hne : pattern ≠ []) :
    ∃ d, buildDFA pattern sample = some d ∧
      ∀ s, s ≤ pattern.length → ∀ c, c ∈ d.alphabet →
        ∃ row n, objGet d.transitionTable s = some row ∧ objGet row c = some n ∧
          n ≤ pattern.length := by
  obtain ⟨lps, table, _, hlen, htab, hbuild, hget⟩ := buildDFA_spec pattern sample hne
  refine ⟨_, hbuild, ?_⟩
  intro s hs c hc
  obtain ⟨row, hrow, hent⟩ := (hget s).1 hs
  obtain ⟨n, hn, hnm, _⟩ := nextState_total (p := pattern) c (table_le htab hlen) hs
  refine ⟨row, n, hrow, ?_, hnm⟩
  rw [hent c, if_pos hc, hn]

/-- C4 at pattern "ab" with sample text "abc". -/
theorem C4_table_total_witness :
    ofAscii "ab" ≠ [] ∧ ∃ d, buildDFA (ofAscii "ab") (ofAscii "abc") = some d ∧
      ∀ s, s ≤ (ofAscii "ab").length → ∀ c, c ∈ d.alphabet →
        ∃ row n, objGet d.transitionTable s = some row ∧ objGet row c = some n ∧
          n ≤ (ofAscii "ab").length :=
  ⟨by decide, C4_table_total (ofAscii "ab") (ofAscii "abc") (by decide)⟩

/-- C5: for every non-empty pattern of length `m` and every sample text, the accepting
state is absorbing in the table of `buildDFA`: `transitionTable[m][c] == m` for every
character `c` of the alphabet. -/
theorem C5_accepting_self_loop (pattern sample : JSString) (hne : pattern ≠ []) :
    ∃ d, buildDFA pattern sample = some d ∧
      ∀ c, c ∈ d.alphabet →
        ∃ row, objGet d.transitionTable pattern.length = some row ∧
          objGet row c = some pattern.length := by
  obtain ⟨lps, table, _, hlen, htab, hbuild, hget⟩ := buildDFA_spec pattern sample hne
  refine ⟨_, hbuild, ?_⟩
  intro c hc
  obtain ⟨row, hrow, hent⟩ := (hget pattern.length).1 (le_refl _)
  obtain ⟨n, hn, _, _, hnm⟩ := nextState_total (p := pattern) c (table_le htab hlen)
    (le_refl pattern.length)
  refine ⟨row, hrow, ?_⟩
  rw [hent c, if_pos hc, hn, hnm rfl]

/-- C5 at pattern "ab" with sample text "abc". -/
theorem C5_accepting_self_loop_witness :
    ofAscii "ab" ≠ [] ∧ ∃ d, buildDFA (ofAscii "ab") (ofAscii "abc") = some d ∧
      ∀ c, c ∈ d.alphabet →
        ∃ row, objGet d.transitionTable (ofAscii "ab").length = some row ∧
          objGet row c = some (ofAscii "ab").length :=
  ⟨by decide, C5_accepting_self_loop (ofAscii "ab") (ofAscii "abc") (by decide)⟩

/-- C6: for every non-empty pattern of length `m` (and every sample text, the default
empty one included), `buildDFA` returns exactly `m + 1` states whose ids are `0, 1, ..., m`
in that order; the state with id `0` is the only one with `isStart = true` and the state
with id `m` is the only one with `isAccepting = true`. -/
theorem C6_states (pattern sample : JSString) (hne : pattern ≠ []) :
    ∃ d, buildDFA pattern sample = some d ∧
      d.states.length = pattern.length + 1 ∧
      d.states.map (fun st => st.id) = List.range (pattern.length + 1) ∧
      ∀ st, st ∈ d.states →
        (st.isStart = true ↔ st.id = 0) ∧ (st.isAccepting = true ↔ st.id = pattern.length) := by
  obtain ⟨lps, table, _, _, _, hbuild, _⟩ := buildDFA_spec pattern sample hne
  refine ⟨_, hbuild, ?_, ?_, ?_⟩
  · simp [buildStates]
  · simp only [buildStates, List.map_map]
    exact List.map_id _
  · intro st hst
    simp only [buildStates, List.mem_map, List.mem_range] at hst
    obtain ⟨i, _, rfl⟩ := hst
    simp

/-- C6 at pattern "aba" with the default sample text. -/
theorem C6_states_witness :
    ofAscii "aba" ≠ [] ∧ ∃ d, buildDFA (ofAscii "aba") [] = some d ∧
      d.states.length = 4 ∧
      d.states.map (fun st => st.id) = [0, 1, 2, 3] ∧
      ∀ st, st ∈ d.states →
        (st.isStart = true ↔ st.id = 0) ∧ (st.isAccepting = true ↔ st.id = 3) :=
  ⟨by decide, C6_states (ofAscii "aba") [] (by decide)⟩

/-! ## The alphabet of `buildDFA` (C7, C8) -/

/-- C7, as stated, fails: `sort()` orders strings by UTF-16 code units, not by code
points. With pattern "a" and the sample text U+FF21 U+1F600, the alphabet lists U+1F600
(units D83D DE00) before U+FF21, against code-point order. -/
theorem C7_alphabet_counterexample :
    ∃ d, buildDFA [97] [0xFF21, 0xD83D, 0xDE00] = some d ∧
      d.alphabet = [[97], [0xD83D, 0xDE00], [0xFF21]] ∧
      ¬ AlphabetRule (fun a b => codePointOf a < codePointOf b) [97] [0xFF21, 0xD83D, 0xDE00]
        d.alphabet := by
  refine ⟨_, rfl, by decide, ?_⟩
  rintro ⟨others, h1, h2, _⟩
  have hA : firstOccurrences ((codePoints [97]).filter keepChar) = [[97]] := by decide
  have hal : (buildAlphabet [97] [0xFF21, 0xD83D, 0xDE00]) =
      [[97], [0xD83D, 0xDE00], [0xFF21]] := by decide
  have h3 : [[97], [0xD83D, 0xDE00], [0xFF21]] = [[97]] ++ others := by
    rw [← hA, ← hal]
    exact h1
  have h4 : others = [[0xD83D, 0xDE00], [0xFF21]] := by
    simpa using h3.symm
  rw [h4] at h2
  simp [codePointOf] at h2

/-- C7, amended: for every non-empty pattern and every sample text, the alphabet of
`buildDFA` is the list of distinct non-whitespace characters of the pattern in order of
first occurrence, followed by the distinct non-whitespace characters of the text that do
not occur in the pattern, the latter in ascending order of their UTF-16 code units; that
is code-point order when the text holds no surrogate pair. -/
theorem C7_alphabet_amended (pattern sample : JSString) (hne : pattern ≠ []) :
    ∃ d, buildDFA pattern sample = some d ∧
      AlphabetRule (fun a b => strLt a b = true) pattern sample d.alphabet ∧
      (hasSurrogatePair sample = false →
        AlphabetRule (fun a b => codePointOf a < codePointOf b) pattern sample d.alphabet) := by
  obtain ⟨lps, table, _, _, _, hbuild, _⟩ := buildDFA_spec pattern sample hne
  refine ⟨_, hbuild, buildAlphabet_rule pattern sample, ?_⟩
  intro hsp
  obtain ⟨others, h1, h2, h3⟩ := buildAlphabet_rule pattern sample
  refine ⟨others, h1, ?_, h3⟩
  refine h2.imp_of_mem ?_
  intro a b ha hb hab
  have ha2 := ((h3 a).1 ha).1
  have hb2 := ((h3 b).1 hb).1
  rw [codePoints_of_no_pair sample hsp, List.mem_map] at ha2 hb2
  obtain ⟨x, _, rfl⟩ := ha2
  obtain ⟨y, _, rfl⟩ := hb2
  simpa [strLt, codePointOf] using hab

/-- C7, amended, at pattern "ba" with sample text "dcab": the alphabet is b, a, c, d. -/
theorem C7_alphabet_amended_witness :
    ofAscii "ba" ≠ [] ∧ ∃ d, buildDFA (ofAscii "ba") (ofAscii "dcab") = some d ∧
      AlphabetRule (fun a b => strLt a b = true) (ofAscii "ba") (ofAscii "dcab") d.alphabet ∧
      (hasSurrogatePair (ofAscii "dcab") = false →
        AlphabetRule (fun a b => codePointOf a < codePointOf b) (ofAscii "ba") (ofAscii "dcab")
          d.alphabet) :=
  ⟨by decide, C7_alphabet_amended (ofAscii "ba") (ofAscii "dcab") (by decide)⟩

/-- C8: for every pattern and every sample text, the alphabet of `buildDFA` has no
duplicate and no whitespace character, and every alphabet character that occurs in the
pattern is positioned before every alphabet character that occurs only in the text. -/
theorem C8_alphabet_invariant (pattern sample : JSString) :
    ∃ d, buildDFA pattern sample = some d ∧ d.alphabet.Nodup ∧
      (∀ u, isWhiteSpace u = true → [u] ∉ d.alphabet) ∧
      ∀ i j ci cj, d.alphabet.get? i = some ci → d.alphabet.get? j = some cj →
        ci ∈ codePoints pattern → cj ∉ codePoints pattern → i < j := by
  by_cases hne : pattern = []
  · subst hne
    refine ⟨_, rfl, ?_, ?_, ?_⟩ <;> simp
  · obtain ⟨lps, table, _, _, _, hbuild, _⟩ := buildDFA_spec pattern sample hne
    obtain ⟨others, h1, h2, h3⟩ := buildAlphabet_rule pattern sample
    have hA : ∀ c, c ∈ firstOccurrences ((codePoints pattern).filter keepChar) →
        c ∈ codePoints pattern ∧ keepChar c = true := by
      intro c hc
      rw [mem_firstOccurrences, List.mem_filter] at hc
      exact hc
    refine ⟨_, hbuild, ?_, ?_, ?_⟩
    · simp only []
      rw [h1, List.nodup_append]
      refine ⟨nodup_firstOccurrences _, ?_, ?_⟩
      · refine h2.imp ?_
        intro a b hab heq
        rw [heq, strLt_irrefl] at hab
        exact absurd hab (by simp)
      · intro c hc1 hc2
        exact ((h3 c).1 hc2).2.2 (hA c hc1).1
    · intro u hu hmem
      simp only [] at hmem
      rw [h1, List.mem_append] at hmem
      have hk : keepChar [u] = true := by
        rcases hmem with h | h
        · exact (hA _ h).2
        · exact ((h3 _).1 h).2.1
      rw [keepChar_unit, hu] at hk
      exact absurd hk (by simp)
    · intro i j ci cj hi hj hci hcj
      simp only [] at hi hj
      rw [h1] at hi hj
      simp only [List.get?_eq_getElem?] at hi hj
      have hi2 : i < (firstOccurrences ((codePoints pattern).filter keepChar)).length := by
        by_contra hge
        rw [List.getElem?_append_right (by omega)] at hi
        exact ((h3 ci).1 (List.getElem?_mem hi)).2.2 hci
      have hj2 : (firstOccurrences ((codePoints pattern).filter keepChar)).length ≤ j := by
        by_contra hlt
        rw [List.getElem?_append_left (by omega)] at hj
        exact hcj (hA cj (List.getElem?_mem hj)).1
      omega

/-! ## Steps of `simulateDFA` on any table (C9, C10) -/

theorem lookupNext_outside (tt : TransitionTable) (al : List JSString) (st : Option Nat)
    (c : JSString) (hc : c ∉ al) : lookupNext tt al st c = some (some 0) := by
  unfold lookupNext
  rw [if_neg (by simpa using hc)]

/-- Shape of the steps of a run that returns, for every table and alphabet: one step
per code unit, a step on a character outside the alphabet goes to state `0`, the first
step leaves the state the run started in and each later step leaves the state the step
before it reached. -/
theorem simLoop_steps (m : Nat) (tt : TransitionTable) (al : List JSString) :
    ∀ (rest : List Nat) (i : Nat) (st : Option Nat) (S : List SimulationStep) (F : List Int),
    simLoop m tt al rest i st [] [] = some (S, F) →
      S.length = rest.length ∧
      (∀ step, step ∈ S → step.char ∉ al → step.toState = some 0) ∧
      (∀ a, S.head? = some a → a.fromState = st) ∧
      ∀ k a b, S.get? k = some a → S.get? (k + 1) = some b → b.fromState = a.toState := by
  intro rest
  induction rest with
  | nil =>
    intro i st S F h
    simp only [simLoop, Option.some.injEq, Prod.mk.injEq] at h
    obtain ⟨rfl, rfl⟩ := h
    simp
  | cons u rest ih =>
    intro i st S F h
    rw [simLoop_cons] at h
    cases hl : lookupNext tt al st [u] with
    | none => simp [hl] at h
    | some nx =>
      rw [hl, Option.some_bind] at h
      cases hr : simLoop m tt al rest (i + 1) nx [] [] with
      | none => simp [hr] at h
      | some r =>
        obtain ⟨S2, F2⟩ := r
        rw [hr] at h
        simp only [Option.map_some', Option.some.injEq, Prod.mk.injEq] at h
        obtain ⟨rfl, rfl⟩ := h
        obtain ⟨h1, h2, h3, h4⟩ := ih (i + 1) nx S2 F2 hr
        refine ⟨by simp [h1], ?_, ?_, ?_⟩
        · intro step hstep hout
          rcases List.mem_cons.1 hstep with hs | hs
          · subst hs
            have hout2 : [u] ∉ al := hout
            rw [lookupNext_outside tt al st [u] hout2] at hl
            simp only [Option.some.injEq] at hl
            rw [← hl]
            rfl
          · exact h2 step hs hout
        · intro a ha
          simp only [List.head?_cons, Option.some.injEq] at ha
          rw [← ha]
          rfl
        · intro k a b ha hb
          cases k with
          | zero =>
            simp only [List.get?_cons_zero, Option.some.injEq] at ha
            simp only [List.get?_cons_succ] at hb
            have hb2 : S2.head? = some b := by
              cases S2 with
              | nil => simp at hb
              | cons x xs => simpa using hb
            rw [h3 b hb2, ← ha]
            rfl
          | succ k =>
            simp only [List.get?_cons_succ] at ha hb
            exact h4 k a b ha hb

theorem simulateDFA_some {pattern text : JSString} {tt : TransitionTable}
    {al : List JSString} {r : MatchResult} (h : simulateDFA pattern text tt al = some r) :
    ∃ F, simLoop pattern.length tt al text 0 (some 0) [] [] = some (r.steps, F) := by
  unfold simulateDFA at h
  cases hs : simLoop pattern.length tt al text 0 (some 0) [] [] with
  | none => simp [hs] at h
  | some res =>
    obtain ⟨S, F⟩ := res
    rw [hs] at h
    simp only [Option.some.injEq] at h
    exact ⟨F, by rw [← h]⟩

theorem simulateAB_isSome :
    (simulateDFA (ofAscii "ab") (ofAscii "abc") tableAB alphabetAB).isSome = true := by
  decide

/-- C9: for every pattern, text, transition table and alphabet passed to `simulateDFA`,
every step of the result whose character is not a member of the alphabet has
`toState = 0`, whatever its `fromState` is. -/
theorem C9_reset_outside_alphabet (pattern text : JSString) (transitionTable : TransitionTable)
    (alphabet : List JSString) (r : MatchResult)
    (h : simulateDFA pattern text transitionTable alphabet = some r)
    (step : SimulationStep) (hstep : step ∈ r.steps) (hout : step.char ∉ alphabet) :
    step.toState = some 0 := by
  obtain ⟨F, hF⟩ := simulateDFA_some h
  exact (simLoop_steps _ _ _ _ _ _ _ _ hF).2.1 step hstep hout

/-- C9 with the DFA of `buildDFA("ab")` and the text "abc": the step at index 2 reads
'c', outside the alphabet, and goes from state 2 to state 0. -/
theorem C9_reset_outside_alphabet_witness :
    (buildDFA (ofAscii "ab") []).map (fun d => (d.transitionTable, d.alphabet)) =
      some (tableAB, alphabetAB) ∧
    ∃ r step, simulateDFA (ofAscii "ab") (ofAscii "abc") tableAB alphabetAB = some r ∧
      r.steps.get? 2 = some step ∧ step.char = ofAscii "c" ∧ step.char ∉ alphabetAB ∧
      step.fromState = some 2 ∧ step.toState = some 0 := by
  refine ⟨by decide,
    (simulateDFA (ofAscii "ab") (ofAscii "abc") tableAB alphabetAB).get simulateAB_isSome,
    mkStep 2 2 [99] (some 2) (some 0), (Option.some_get simulateAB_isSome).symm,
    by decide, by decide, by decide, by decide, ?_⟩
  exact C9_reset_outside_alphabet (ofAscii "ab") (ofAscii "abc") tableAB alphabetAB
    ((simulateDFA (ofAscii "ab") (ofAscii "abc") tableAB alphabetAB).get simulateAB_isSome)
    (Option.some_get simulateAB_isSome).symm (mkStep 2 2 [99] (some 2) (some 0))
    (by decide) (by decide)

/-- C10: for every input to `simulateDFA` with a non-empty text, the returned steps
chain: `steps[0].fromState == 0` and, for every `i` with `0 < i < text.length`,
`steps[i].fromState == steps[i-1].toState`. -/
theorem C10_steps_chain (pattern text : JSString) (transitionTable : TransitionTable)
    (alphabet : List JSString) (r : MatchResult)
    (h : simulateDFA pattern text transitionTable alphabet = some r) (hne : text ≠ []) :
    (∃ first, r.steps.get? 0 = some first ∧ first.fromState = some 0) ∧
    ∀ i, 0 < i → i < text.length →
      ∃ a b, r.steps.get? (i - 1) = some a ∧ r.steps.get? i = some b ∧
        b.fromState = a.toState := by
  obtain ⟨F, hF⟩ := simulateDFA_some h
  obtain ⟨h1, _, h3, h4⟩ := simLoop_steps _ _ _ _ _ _ _ _ hF
  have hpos : 0 < text.length := List.length_pos.2 hne
  constructor
  · cases hs : r.steps with
    | nil => rw [hs] at h1; simp at h1; omega
    | cons x xs => exact ⟨x, rfl, h3 x (by rw [hs]; rfl)⟩
  · intro i hi hin
    have hi1 : i - 1 < r.steps.length := by omega
    have hi2 : i < r.steps.length := by omega
    refine ⟨r.steps[i - 1], r.steps[i], by simp [List.getElem?_eq_getElem hi1],
      by simp [List.getElem?_eq_getElem hi2], ?_⟩
    apply h4 (i - 1)
    · simp [List.getElem?_eq_getElem hi1]
    · rw [Nat.sub_add_cancel (by omega : 1 ≤ i)]
      simp [List.getElem?_eq_getElem hi2]

/-- C10 with the DFA of `buildDFA("ab")` and the text "abc". -/
theorem C10_steps_chain_witness :
    (buildDFA (ofAscii "ab") []).map (fun d => (d.transitionTable, d.alphabet)) =
      some (tableAB, alphabetAB) ∧
    ofAscii "abc" ≠ [] ∧
    ∃ r, simulateDFA (ofAscii "ab") (ofAscii "abc") tableAB alphabetAB = some r ∧
      (∃ first, r.steps.get? 0 = some first ∧ first.fromState = some 0) ∧
      ∀ i, 0 < i → i < (ofAscii "abc").length →
        ∃ a b, r.steps.get? (i - 1) = some a ∧ r.steps.get? i = some b ∧
          b.fromState = a.toState := by
  exact ⟨by decide, by decide,
    (simulateDFA (ofAscii "ab") (ofAscii "abc") tableAB alphabetAB).get simulateAB_isSome,
    (Option.some_get simulateAB_isSome).symm,
    C10_steps_chain (ofAscii "ab") (ofAscii "abc") tableAB alphabetAB _
      (Option.some_get simulateAB_isSome).symm (by decide)⟩

/-! ## Shape of the result of `simulateDFA` on any table (C11, C12, C16) -/

/-- Every step of a run that returns is the step object of its index and code unit, and
the matches are the `matchStart` values of the steps, in step order. -/
theorem simLoop_shape (m : Nat) (tt : TransitionTable) (al : List JSString) :
    ∀ (rest : List Nat) (i : Nat) (st : Option Nat) (S : List SimulationStep) (F : List Int),
    simLoop m tt al rest i st [] [] = some (S, F) →
      S.length = rest.length ∧
      (∀ k, k < rest.length →
        ∃ fs ts, S.get? k = some (mkStep m (i + k) [rest.getD k 0] fs ts)) ∧
      F = S.filterMap (fun s => s.matchStart) := by
  intro rest
  induction rest with
  | nil =>
    intro i st S F h
    simp only [simLoop, Option.some.injEq, Prod.mk.injEq] at h
    obtain ⟨rfl, rfl⟩ := h
    simp
  | cons u rest ih =>
    intro i st S F h
    rw [simLoop_cons] at h
    cases hl : lookupNext tt al st [u] with
    | none => simp [hl] at h
    | some nx =>
      rw [hl, Option.some_bind] at h
      cases hr : simLoop m tt al rest (i + 1) nx [] [] with
      | none => simp [hr] at h
      | some r =>
        obtain ⟨S2, F2⟩ := r
        rw [hr] at h
        simp only [Option.map_some', Option.some.injEq, Prod.mk.injEq] at h
        obtain ⟨rfl, rfl⟩ := h
        obtain ⟨h1, h2, h3⟩ := ih (i + 1) nx S2 F2 hr
        refine ⟨by simp [h1], ?_, ?_⟩
        · intro k hk
          cases k with
          | zero => exact ⟨st, nx, rfl⟩
          | succ k =>
            obtain ⟨fs, ts, hk2⟩ := h2 k (by simpa using hk)
            refine ⟨fs, ts, ?_⟩
            simp only [List.get?_cons_succ, List.getD_cons_succ]
            rw [hk2]
            congr 2
            omega
        · rw [h3]
          by_cases hm : nx = some m <;> simp [mkStep, hm]

/-- A result of `simulateDFA` is the pair returned by the loop together with
`totalComparisons = text.length`. -/
theorem simulateDFA_eq {pattern text : JSString} {tt : TransitionTable}
    {al : List JSString} {r : MatchResult} (h : simulateDFA pattern text tt al = some r) :
    ∃ S F, simLoop pattern.length tt al text 0 (some 0) [] [] = some (S, F) ∧
      r = { steps := S, «matches» := F, totalComparisons := text.length } := by
  unfold simulateDFA at h
  cases hs : simLoop pattern.length tt al text 0 (some 0) [] [] with
  | none => simp [hs] at h
  | some res =>
    obtain ⟨S, F⟩ := res
    rw [hs] at h
    simp only [Option.some.injEq] at h
    exact ⟨S, F, rfl, h.symm⟩

/-- C11: for every input to `simulateDFA`, the result has exactly one step per text
character, in text order: `steps.length == text.length`, `steps[i].charIndex == i` and
`steps[i].char == text[i]` for every `i`, and `totalComparisons == text.length`. -/
theorem C11_one_step_per_character (pattern text : JSString)
    (transitionTable : TransitionTable) (alphabet : List JSString) (r : MatchResult)
    (h : simulateDFA pattern text transitionTable alphabet = some r) :
    r.steps.length = text.length ∧
    (∀ i, i < text.length →
      ∃ step, r.steps.get? i = some step ∧ step.charIndex = i ∧
        charAt text i = some step.char) ∧
    r.totalComparisons = text.length := by
  obtain ⟨S, F, hSF, rfl⟩ := simulateDFA_eq h
  obtain ⟨h1, h2, _⟩ := simLoop_shape _ _ _ _ _ _ _ _ hSF
  refine ⟨h1, ?_, rfl⟩
  intro i hi
  obtain ⟨fs, ts, hk⟩ := h2 i hi
  refine ⟨_, hk, by simp [mkStep], ?_⟩
  simp [charAt, mkStep, List.getElem?_eq_getElem hi]

/-- C11 with the DFA of `buildDFA("ab")` and the text "abc": three steps, three
comparisons. -/
theorem C11_one_step_per_character_witness :
    ∃ r, simulateDFA (ofAscii "ab") (ofAscii "abc") tableAB alphabetAB = some r ∧
      r.steps.length = 3 ∧
      (∀ i, i < 3 →
        ∃ step, r.steps.get? i = some step ∧ step.charIndex = i ∧
          charAt (ofAscii "abc") i = some step.char) ∧
      r.totalComparisons = 3 :=
  ⟨(simulateDFA (ofAscii "ab") (ofAscii "abc") tableAB alphabetAB).get simulateAB_isSome,
    (Option.some_get simulateAB_isSome).symm,
    C11_one_step_per_character (ofAscii "ab") (ofAscii "abc") tableAB alphabetAB _
      (Option.some_get simulateAB_isSome).symm⟩

theorem filter_matched_eq (S : List SimulationStep)
    (hS : ∀ s, s ∈ S → s.matched = s.matchStart.isSome) :
    (S.filter (fun s => s.matched)).map (fun s => s.matchStart) =
      (S.filterMap (fun s => s.matchStart)).map some := by
  induction S with
  | nil => rfl
  | cons s S ih =>
    have hs := hS s (List.mem_cons_self _ _)
    have ih2 := ih (fun x hx => hS x (List.mem_cons_of_mem _ hx))
    cases hms : s.matchStart with
    | none =>
      have hm : s.matched = false := by rw [hs, hms]; rfl
      rw [List.filter_cons_of_neg (by simp [hm]), List.filterMap_cons_none hms]
      exact ih2
    | some z =>
      have hm : s.matched = true := by rw [hs, hms]; rfl
      rw [List.filter_cons_of_pos (by simp [hm]), List.filterMap_cons_some hms]
      simp only [List.map_cons, hms]
      rw [ih2]

/-- C12: in every `simulateDFA` result for a pattern of length `m`, step `i` has
`matched = true` if and only if its `toState` equals `m`; a matched step carries
`matchStart = i - m + 1` and an unmatched step carries no `matchStart`; and `matches` is
exactly the list of the `matchStart` values of the matched steps, in step order. -/
theorem C12_matched_steps (pattern text : JSString) (transitionTable : TransitionTable)
    (alphabet : List JSString) (r : MatchResult)
    (h : simulateDFA pattern text transitionTable alphabet = some r) :
    (∀ i step, r.steps.get? i = some step →
      (step.matched = true ↔ step.toState = some pattern.length) ∧
      (step.matched = true →
        step.matchStart = some ((i : Int) - (pattern.length : Int) + 1)) ∧
      (step.matched = false → step.matchStart = none)) ∧
    (r.steps.filter (fun s => s.matched)).map (fun s => s.matchStart) =
      r.«matches».map some := by
  obtain ⟨S, F, hSF, rfl⟩ := simulateDFA_eq h
  obtain ⟨h1, h2, h3⟩ := simLoop_shape _ _ _ _ _ _ _ _ hSF
  have hstep : ∀ i step, S.get? i = some step →
      ∃ fs ts, step = mkStep pattern.length i [text.getD i 0] fs ts := by
    intro i step hi
    have hlt : i < text.length := by
      rw [← h1]
      exact (List.get?_eq_some.1 hi).1
    obtain ⟨fs, ts, hk⟩ := h2 i hlt
    rw [hk, Nat.zero_add] at hi
    exact ⟨fs, ts, (Option.some.inj hi).symm⟩
  constructor
  · intro i step hi
    obtain ⟨fs, ts, rfl⟩ := hstep i step hi
    by_cases hm : ts = some pattern.length <;> simp [mkStep, hm]
  · simp only []
    rw [h3]
    apply filter_matched_eq
    intro s hs
    obtain ⟨i, hi⟩ := List.get?_of_mem hs
    obtain ⟨fs, ts, rfl⟩ := hstep i s hi
    by_cases hm : ts = some pattern.length <;> simp [mkStep, hm]

/-- C12 with the DFA of `buildDFA("ab")` and the text "abc": the step at index 1 is the
only matched one, with `matchStart = 0`, and `matches = [0]`. -/
theorem C12_matched_steps_witness :
    ∃ r, simulateDFA (ofAscii "ab") (ofAscii "abc") tableAB alphabetAB = some r ∧
      r.«matches» = [0] ∧
      (∀ i step, r.steps.get? i = some step →
        (step.matched = true ↔ step.toState = some (ofAscii "ab").length) ∧
        (step.matched = true →
          step.matchStart = some ((i : Int) - ((ofAscii "ab").length : Int) + 1)) ∧
        (step.matched = false → step.matchStart = none)) ∧
      (r.steps.filter (fun s => s.matched)).map (fun s => s.matchStart) =
        r.«matches».map some :=
  ⟨(simulateDFA (ofAscii "ab") (ofAscii "abc") tableAB alphabetAB).get simulateAB_isSome,
    (Option.some_get simulateAB_isSome).symm, by decide,
    C12_matched_steps (ofAscii "ab") (ofAscii "abc") tableAB alphabetAB _
      (Option.some_get simulateAB_isSome).symm⟩

/-- C16: for every pattern, transition table and alphabet, `simulateDFA` on the empty
text returns, with an empty `steps` list, an empty `matches` list and
`totalComparisons = 0`. -/
theorem C16_empty_text (pattern : JSString) (transitionTable : TransitionTable)
    (alphabet : List JSString) :
    simulateDFA pattern [] transitionTable alphabet =
      some { steps := [], «matches» := [], totalComparisons := 0 } := rfl

/-! ## The empty pattern (C14, C15) -/

/-- C14: for the empty pattern (with any sample text) `buildDFA` returns the degenerate
DFA: exactly one state, with id 0, `isStart = true` and `isAccepting = false`; an empty
alphabet; an empty transition list; and a transition table with no (state, character)
entry. -/
theorem C14_empty_pattern (sample : JSString) :
    ∃ d, buildDFA [] sample = some d ∧
      d.states = [{ id := 0, isStart := true, isAccepting := false, label := "q0" }] ∧
      d.alphabet = [] ∧ d.transitions = [] ∧
      ∀ s c row, objGet d.transitionTable s = some row → objGet row c = none := by
  refine ⟨_, rfl, rfl, rfl, rfl, ?_⟩
  intro s c row hrow
  simp only [objGet_cons, objGet_nil] at hrow
  split at hrow
  · simp only [Option.some.injEq] at hrow
    rw [← hrow]
    rfl
  · exact absurd hrow (by simp)

/-- With the empty pattern and the empty alphabet every iteration of the loop resets to
state `0`, which is `m`: every step is a match. -/
theorem simLoop_empty_pattern (tt : TransitionTable) :
    ∀ (rest : List Nat) (i : Nat),
    simLoop 0 tt [] rest i (some 0) [] [] = some
      ((List.range rest.length).map (fun k =>
          mkStep 0 (i + k) [rest.getD k 0] (some 0) (some 0)),
        (List.range rest.length).map (fun k => ((i + k : Nat) : Int) + 1)) := by
  intro rest
  induction rest with
  | nil => intro i; rfl
  | cons u rest ih =>
    intro i
    rw [simLoop_cons, lookupNext_outside tt [] (some 0) [u] (by simp), Option.some_bind,
      ih (i + 1)]
    simp only [Option.map_some', List.length_cons, List.range_succ_eq_map, List.map_cons,
      List.map_map, Option.some.injEq, Prod.mk.injEq]
    refine ⟨?_, ?_⟩
    · simp only [List.getD_cons_zero, Nat.add_zero, List.cons.injEq, true_and]
      apply List.map_congr_left
      intro k _
      simp only [Function.comp, List.getD_cons_succ]
      congr 1
      omega
    · simp only [Nat.add_zero, if_true, List.singleton_append, List.cons.injEq]
      refine ⟨by simp, ?_⟩
      apply List.map_congr_left
      intro k _
      simp only [Function.comp]
      push_cast
      ring

/-- The run of `buildDFA` followed by `simulateDFA` for the empty pattern. -/
theorem runDFA_empty (sample text : JSString) :
    runDFA [] sample text = some
      { steps := (List.range text.length).map (fun k =>
          mkStep 0 k [text.getD k 0] (some 0) (some 0)),
        «matches» := (List.range text.length).map (fun (k : Nat) => (k : Int) + 1),
        totalComparisons := text.length } := by
  have h := simLoop_empty_pattern [(0, [])] text 0
  simp only [Nat.zero_add] at h
  simp only [runDFA, buildDFA, List.isEmpty_nil, if_true, simulateDFA, List.length_nil, h]

/-- C15 fails on the code: the degenerate DFA of `buildDFA("")` has no accepting state,
but `simulateDFA` compares the state with `m = pattern.length = 0`, so with the empty
pattern every step of every text is reported as a match, with `matches = [1, ..., n]`;
on the text "a" the result is `matches = [1]`. -/
theorem C15_empty_pattern_reports_matches :
    (∀ sample text : JSString, ∃ d r, buildDFA [] sample = some d ∧
      (∀ st, st ∈ d.states → st.isAccepting = false) ∧
      simulateDFA [] text d.transitionTable d.alphabet = some r ∧
      r.«matches» = (List.range text.length).map (fun (k : Nat) => (k : Int) + 1) ∧
      ∀ step, step ∈ r.steps → step.matched = true) ∧
    (runDFA [] [] (ofAscii "a")).map (fun r => r.«matches») = some [1] := by
  refine ⟨?_, by decide⟩
  intro sample text
  have h := runDFA_empty sample text
  simp only [runDFA, buildDFA, List.isEmpty_nil, if_true] at h
  refine ⟨_, _, rfl, by simp, h, rfl, ?_⟩
  intro step hstep
  simp only [List.mem_map, List.mem_range] at hstep
  obtain ⟨k, _, rfl⟩ := hstep
  rfl

/-! ## Bounds of the failure table (C19) -/

/-- C19: for every pattern, `computeFailureFunction(pattern)` has length
`m = pattern.length` (it is empty for the empty pattern), its entry at index 0 is 0 when
`m > 0`, and every entry satisfies `0 <= failure[i] <= i`. -/
theorem C19_failure_bounds (pattern : JSString) :
    ∃ failure, computeFailureFunction pattern = some failure ∧
      failure.length = pattern.length ∧
      (0 < pattern.length → failure.get? 0 = some 0) ∧
      ∀ i v, failure.get? i = some v → v ≤ i := by
  obtain ⟨lps, hlps, hlen, htab⟩ := computeFailureFunction_spec pattern
  have hle := table_le htab hlen
  refine ⟨lps, hlps, hlen, ?_, ?_⟩
  · intro hm
    have h0 := hle 0
    have hget : lps.get? 0 = some (lps.getD 0 0) := by
      simp [List.getElem?_eq_getElem (by omega : 0 < lps.length)]
    rw [hget]
    congr 1
    omega
  · intro i v hv
    have hi := hle i
    simp only [List.get?_eq_getElem?] at hv
    simpa [hv] using hi

/-! ## Safety of the lookups (C17) and the transition list (C18) -/

/-- C17: for every pattern (empty or not), every sample text and every text to search,
`simulateDFA` over the table and alphabet of `buildDFA(pattern, sample)` returns without
an undefined table lookup: every step's `fromState` and `toState` are numbers in
`[0, m]`, and whenever the character of a step is in the alphabet, the entry
`transitionTable[fromState][char]` exists and is the step's `toState`. -/
theorem C17_no_undefined_lookup (pattern sample text : JSString) :
    ∃ d r, buildDFA pattern sample = some d ∧
      simulateDFA pattern text d.transitionTable d.alphabet = some r ∧
      ∀ step, step ∈ r.steps →
        ∃ a b, step.fromState = some a ∧ step.toState = some b ∧
          a ≤ pattern.length ∧ b ≤ pattern.length ∧
          (step.char ∈ d.alphabet →
            ∃ row, objGet d.transitionTable a = some row ∧
              objGet row step.char = some b) := by
  by_cases hne : pattern = []
  · subst hne
    have h := runDFA_empty sample text
    simp only [runDFA, buildDFA, List.isEmpty_nil, if_true] at h
    refine ⟨_, _, rfl, h, ?_⟩
    intro step hstep
    simp only [List.mem_map, List.mem_range] at hstep
    obtain ⟨k, _, rfl⟩ := hstep
    exact ⟨0, 0, rfl, rfl, le_refl _, le_refl _, fun hc => absurd hc (by simp)⟩
  · obtain ⟨lps, table, _, hlen, htab, hbuild, hget⟩ := buildDFA_spec pattern sample hne
    have hle := table_le htab hlen
    have hsim := simLoop_built (p := pattern) hle (fun s hs => (hget s).1 hs) text 0 0
      (Nat.zero_le _)
    have hr : simulateDFA pattern text table (buildAlphabet pattern sample) = some
        { steps := (List.range text.length).map (fun k =>
            mkStep pattern.length (0 + k) [text.getD k 0]
              (some (dfaRun pattern lps (buildAlphabet pattern sample) 0 (text.take k)))
              (some (dfaRun pattern lps (buildAlphabet pattern sample) 0 (text.take (k + 1))))),
          «matches» := ((List.range text.length).filter (fun k =>
            decide (dfaRun pattern lps (buildAlphabet pattern sample) 0 (text.take (k + 1)) =
              pattern.length))).map
              (fun k => ((0 + k : Nat) : Int) - (pattern.length : Int) + 1),
          totalComparisons := text.length } := by
      simp only [simulateDFA, hsim]
    refine ⟨_, _, hbuild, hr, ?_⟩
    · intro step hstep
      simp only [List.mem_map, List.mem_range] at hstep
      obtain ⟨k, hk, rfl⟩ := hstep
      have ha := @dfaRun_le pattern lps (buildAlphabet pattern sample) hle
        (text.take k) 0 (Nat.zero_le _)
      have hb := @dfaRun_le pattern lps (buildAlphabet pattern sample) hle
        (text.take (k + 1)) 0 (Nat.zero_le _)
      refine ⟨_, _, rfl, rfl, ha, hb, ?_⟩
      intro hc
      have hc2 : [text.getD k 0] ∈ buildAlphabet pattern sample := hc
      obtain ⟨row, hrow, hent⟩ := (hget _).1 ha
      obtain ⟨n, hn, _⟩ := nextState_total (p := pattern) [text.getD k 0] hle ha
      refine ⟨row, hrow, ?_⟩
      have hmk : (mkStep pattern.length (0 + k) [text.getD k 0]
          (some (dfaRun pattern lps (buildAlphabet pattern sample) 0 (text.take k)))
          (some (dfaRun pattern lps (buildAlphabet pattern sample) 0
            (text.take (k + 1))))).char = [text.getD k 0] := rfl
      rw [hmk, hent, if_pos hc2, hn, take_succ_getD text hk, dfaRun_snoc]
      unfold dfaNext
      rw [if_pos hc2, hn]
      rfl

theorem length_flatTransitions (p : JSString) (lps : List Nat) (al : List JSString)
    (sts : List Nat) : (flatTransitions p lps al sts).length = sts.length * al.length := by
  induction sts with
  | nil => simp [flatTransitions]
  | cons s rest ih =>
    unfold flatTransitions at ih ⊢
    rw [List.flatMap_cons, List.length_append, ih, List.length_map, List.length_cons,
      Nat.succ_mul, Nat.add_comm]

/-- C18: for every non-empty pattern and every sample text, the `transitions` list of
`buildDFA` is the transition table flattened: it has exactly `(m+1) * |alphabet|`
triples, one for each pair `(state, char)` with `state` in `0..m` and `char` in the
alphabet, listed by ascending state and, within a state, in alphabet order, and each
triple `(from, to, char)` satisfies `transitionTable[from][char] == to`. -/
theorem C18_transitions_flatten (pattern sample : JSString) (hne : pattern ≠ []) :
    ∃ d, buildDFA pattern sample = some d ∧
      d.transitions.length = (pattern.length + 1) * d.alphabet.length ∧
      d.transitions.map (fun t => (t.«from», t.char)) =
        (List.range (pattern.length + 1)).flatMap (fun s => d.alphabet.map (fun c => (s, c))) ∧
      ∀ t, t ∈ d.transitions →
        ∃ row, objGet d.transitionTable t.«from» = some row ∧
          objGet row t.char = some t.«to» := by
  obtain ⟨lps, table, _, hlen, htab, hbuild, hget⟩ := buildDFA_spec pattern sample hne
  have hle := table_le htab hlen
  refine ⟨_, hbuild, ?_, ?_, ?_⟩
  · simp only []
    rw [length_flatTransitions, List.length_range]
  · simp only [flatTransitions, List.map_flatMap, List.map_map]
    rfl
  · intro t ht
    simp only [flatTransitions, List.mem_flatMap, List.mem_range, List.mem_map] at ht
    obtain ⟨s, hs, c, hc, rfl⟩ := ht
    have hs2 : s ≤ pattern.length := by omega
    obtain ⟨row, hrow, hent⟩ := (hget s).1 hs2
    obtain ⟨n, hn, _⟩ := nextState_total (p := pattern) c hle hs2
    refine ⟨row, hrow, ?_⟩
    simp only []
    rw [hent, if_pos hc, hn]
    rfl

/-- C18 at pattern "ab" with sample text "abc": nine transitions. -/
theorem C18_transitions_flatten_witness :
    ofAscii "ab" ≠ [] ∧ ∃ d, buildDFA (ofAscii "ab") (ofAscii "abc") = some d ∧
      d.transitions.length = 3 * d.alphabet.length ∧
      d.transitions.map (fun t => (t.«from», t.char)) =
        (List.range 3).flatMap (fun s => d.alphabet.map (fun c => (s, c))) ∧
      ∀ t, t ∈ d.transitions →
        ∃ row, objGet d.transitionTable t.«from» = some row ∧
          objGet row t.char = some t.«to» :=
  ⟨by decide, C18_transitions_flatten (ofAscii "ab") (ofAscii "abc") (by decide)⟩

/-! ## Patterns with a whitespace character (C20) -/

theorem buildAlphabet_keep (p t : JSString) (c : JSString) (hc : c ∈ buildAlphabet p t) :
    keepChar c = true := by
  obtain ⟨others, h1, _, h3⟩ := buildAlphabet_rule p t
  rw [h1, List.mem_append] at hc
  rcases hc with h | h
  · rw [mem_firstOccurrences, List.mem_filter] at h
    exact h.2
  · exact ((h3 c).1 h).2.1

/-- Below the accepting state a table entry is `0` or one more than an index of the
pattern, not above the state, that holds the character. -/
theorem nextState_shape {p : JSString} {lps : List Nat} (c : JSString) {s : Nat}
    (hle : ∀ j, lps.getD j 0 ≤ j) (hs : s < p.length) :
    ∃ n, nextState p lps s c = some n ∧ n ≤ s + 1 ∧
      (n = 0 ∨ charAt p (n - 1) = some c) := by
  unfold nextState
  by_cases h1 : s < p.length ∧ charAt p s = some c
  · rw [if_pos h1]
    exact ⟨s + 1, rfl, le_refl _, Or.inr h1.2⟩
  · rw [if_neg h1, if_neg (by omega)]
    obtain ⟨k2, hk2, hk2le⟩ := fallback_total (p := p) c hle s s (le_refl _)
    rw [hk2]
    by_cases hc : charAt p k2 = some c
    · exact ⟨k2 + 1, by simp [hc], by omega, Or.inr hc⟩
    · exact ⟨0, by simp [hc], by omega, Or.inl rfl⟩

/-- A run never gets past an index of the pattern that holds a whitespace character. -/
theorem dfaRun_below {p : JSString} {lps : List Nat} (sample : JSString) {j : Nat}
    (hle : ∀ i, lps.getD i 0 ≤ i) (hj : j < p.length)
    (hws : isWhiteSpace (p.getD j 0) = true) :
    ∀ (w : List Nat) (s : Nat), s ≤ j → dfaRun p lps (buildAlphabet p sample) s w ≤ j := by
  intro w
  induction w with
  | nil => intro s hs; simpa [dfaRun] using hs
  | cons u w ih =>
    intro s hs
    have : dfaRun p lps (buildAlphabet p sample) s (u :: w) =
        dfaRun p lps (buildAlphabet p sample) (dfaNext p lps (buildAlphabet p sample) s u) w :=
      rfl
    rw [this]
    apply ih
    unfold dfaNext
    by_cases hu : [u] ∈ buildAlphabet p sample
    · rw [if_pos hu]
      obtain ⟨n, hn, hn1, hn2⟩ := nextState_shape (p := p) [u] hle (by omega : s < p.length)
      rw [hn, Option.getD_some]
      by_contra hgt
      have hnj : n = j + 1 := by omega
      rcases hn2 with h0 | hch
      · omega
      · rw [hnj, Nat.add_sub_cancel, charAt_eq_iff] at hch
        have hget : p.getD j 0 = u := by
          simp only [List.get?_eq_getElem?] at hch
          simp [hch]
        have hk := buildAlphabet_keep p sample [u] hu
        rw [keepChar_unit, ← hget, hws] at hk
        exact absurd hk (by simp)
    · rw [if_neg hu]
      omega

/-- C20: for every pattern that holds a whitespace character at an index `j` (its first
one in particular), and for every text and sample text, `simulateDFA` over the DFA of
`buildDFA` never reaches a state greater than `j`: every step's `toState` is at most
`j`, so no step is matched and `matches` is empty. -/
theorem C20_whitespace_pattern (pattern sample text : JSString) (j : Nat)
    (hj : j < pattern.length) (hws : isWhiteSpace (pattern.getD j 0) = true) :
    ∃ r, runDFA pattern sample text = some r ∧
      (∀ step, step ∈ r.steps → ∃ b, step.toState = some b ∧ b ≤ j) ∧
      r.«matches» = [] ∧ ∀ step, step ∈ r.steps → step.matched = false := by
  have hne : pattern ≠ [] := by
    intro h
    rw [h] at hj
    exact absurd hj (by simp)
  obtain ⟨lps, _, hlen, htab, hrun⟩ := runDFA_spec pattern sample text hne
  have hbelow := dfaRun_below (p := pattern) sample (table_le htab hlen) hj hws
  have hnever : ∀ k,
      dfaRun pattern lps (buildAlphabet pattern sample) 0 (text.take (k + 1)) ≠
        pattern.length := by
    intro k heq
    have := hbelow (text.take (k + 1)) 0 (Nat.zero_le _)
    omega
  refine ⟨_, hrun, ?_, ?_, ?_⟩
  · intro step hstep
    simp only [List.mem_map, List.mem_range] at hstep
    obtain ⟨k, _, rfl⟩ := hstep
    exact ⟨_, rfl, hbelow _ 0 (Nat.zero_le _)⟩
  · simp only [List.map_eq_nil_iff, List.filter_eq_nil_iff, List.mem_range, decide_eq_true_eq]
    exact fun k _ => hnever k
  · intro step hstep
    simp only [List.mem_map, List.mem_range] at hstep
    obtain ⟨k, _, rfl⟩ := hstep
    simpa [mkStep] using hnever k

/-- C20 at the pattern "a b" (blank at index 1) on the text "a b a b". -/
theorem C20_whitespace_pattern_witness :
    1 < (ofAscii "a b").length ∧ isWhiteSpace ((ofAscii "a b").getD 1 0) = true ∧
    ∃ r, runDFA (ofAscii "a b") (ofAscii "a b a b") (ofAscii "a b a b") = some r ∧
      (∀ step, step ∈ r.steps → ∃ b, step.toState = some b ∧ b ≤ 1) ∧
      r.«matches» = [] ∧ ∀ step, step ∈ r.steps → step.matched = false :=
  ⟨by decide, by decide,
    C20_whitespace_pattern (ofAscii "a b") (ofAscii "a b a b") (ofAscii "a b a b") 1
      (by decide) (by decide)⟩

/-! ## The state as the longest matched prefix (C13) -/

/-- When every code unit of the pattern is an alphabet character, a step that ends
below `m` ends in the length of the longest prefix of the pattern that is a suffix of
the text read so far. -/
theorem toState_longest_of_units (pattern sample text : JSString) (hne : pattern ≠ [])
    (hal : ∀ u, u ∈ pattern → [u] ∈ buildAlphabet pattern sample) :
    ∃ r, runDFA pattern sample text = some r ∧
      ∀ i step b, r.steps.get? i = some step → step.toState = some b →
        b < pattern.length → IsLongest pattern.length pattern (text.take (i + 1)) b := by
  obtain ⟨lps, _, hlen, htab, hrun⟩ := runDFA_spec pattern sample text hne
  have hex := dfaRun_exact (buildAlphabet pattern sample) text hne hlen htab hal
  refine ⟨_, hrun, ?_⟩
  intro i step b hi hb hlt
  simp only [List.get?_eq_getElem?, List.getElem?_map] at hi
  have hil : i < text.length := by
    by_contra hge
    rw [List.getElem?_eq_none (by simp; omega)] at hi
    simp at hi
  rw [List.getElem?_range hil] at hi
  simp only [Option.map_some', Option.some.injEq] at hi
  rw [← hi] at hb
  simp only [mkStep, Option.some.injEq] at hb
  obtain ⟨h1, h2⟩ := hex (i + 1) (by omega)
  have hnot : ¬ Absorbed pattern (buildAlphabet pattern sample) text (i + 1) := by
    intro habs
    have := h1 habs
    omega
  rw [← hb]
  exact (h2 hnot).1

/-- C13 fails on the code for a pattern with a character outside the BMP. The alphabet
is built from code points, the table and the simulation read code units: with the
pattern U+1F600 (units D83D DE00) and the same text, both steps end in state 0, while
after the first unit the longest prefix of the pattern that ends the text has length 1,
and the pattern, which occurs at index 0, is not found. -/
theorem C13_surrogate_pair_state :
    ∃ r, runDFA [0xD83D, 0xDE00] [0xD83D, 0xDE00] [0xD83D, 0xDE00] = some r ∧
      r.steps.map (fun s => s.toState) = [some 0, some 0] ∧ r.«matches» = [] ∧
      (∀ u, u ∈ [0xD83D, 0xDE00] → isWhiteSpace u = false) ∧
      IsLongest 2 [0xD83D, 0xDE00] (List.take 1 [0xD83D, 0xDE00]) 1 ∧
      OccursAt [0xD83D, 0xDE00] [0xD83D, 0xDE00] 0 := by
  refine ⟨_, rfl, by decide, by decide, by decide, ?_, by unfold OccursAt; decide⟩
  refine ⟨by omega, by decide, ?_⟩
  intro k _ hk
  have := hk.length_le
  simp only [List.take_succ_cons, List.take_zero, List.length_singleton] at this
  have hlen : (List.take k [0xD83D, 0xDE00]).length = min k 2 := by simp
  omega

/-! ## `getExtendedAlphabet` (C21) -/

theorem mem_setAdd (chars : List JSString) (c x : JSString) :
    x ∈ setAdd chars c ↔ x ∈ chars ∨ x = c := by
  unfold setAdd
  by_cases h : chars.contains c = true
  · rw [if_pos h]
    have hc : c ∈ chars := by simpa using h
    constructor
    · exact Or.inl
    · rintro (h1 | rfl)
      · exact h1
      · exact hc
  · rw [if_neg h]
    simp

theorem nodup_setAdd (chars : List JSString) (c : JSString) (h : chars.Nodup) :
    (setAdd chars c).Nodup := by
  unfold setAdd
  by_cases hc : chars.contains c = true
  · rw [if_pos hc]
    exact h
  · rw [if_neg hc]
    have hc2 : c ∉ chars := by simpa using hc
    rw [List.nodup_append]
    refine ⟨h, List.nodup_singleton c, ?_⟩
    intro x hx hx2
    rw [List.mem_singleton] at hx2
    exact hc2 (hx2 ▸ hx)

theorem foldl_setAdd (cs : List JSString) : ∀ chars : List JSString, chars.Nodup →
    (cs.foldl setAdd chars).Nodup ∧ ∀ x, x ∈ cs.foldl setAdd chars ↔ x ∈ chars ∨ x ∈ cs := by
  induction cs with
  | nil => intro chars h; simpa using h
  | cons c cs ih =>
    intro chars h
    obtain ⟨h1, h2⟩ := ih (setAdd chars c) (nodup_setAdd chars c h)
    refine ⟨h1, ?_⟩
    intro x
    rw [List.foldl_cons, h2, mem_setAdd, List.mem_cons]
    tauto

/-- C21: `getExtendedAlphabet(pattern, text)` returns an array without duplicates,
sorted in ascending order (of UTF-16 code units, the order of `sort()`), whose elements
are exactly the characters that occur in the pattern or in the text; whitespace
characters are included, unlike in the alphabet of `buildDFA`. -/
theorem C21_extended_alphabet (pattern text : JSString) :
    (getExtendedAlphabet pattern text).Nodup ∧
    (getExtendedAlphabet pattern text).Pairwise (fun a b => strLt a b = true) ∧
    (∀ c, c ∈ getExtendedAlphabet pattern text ↔
      c ∈ codePoints pattern ∨ c ∈ codePoints text) ∧
    ofAscii " " ∈ getExtendedAlphabet (ofAscii "a b") (ofAscii "") ∧
    ofAscii " " ∉ buildAlphabet (ofAscii "a b") (ofAscii "") := by
  obtain ⟨h1, h2⟩ := foldl_setAdd (codePoints pattern) [] List.nodup_nil
  obtain ⟨h3, h4⟩ := foldl_setAdd (codePoints text) _ h1
  unfold getExtendedAlphabet
  refine ⟨(perm_jsSort _).nodup_iff.2 h3, strict_jsSort _ h3, ?_, by decide, by decide⟩
  intro c
  simp only []
  rw [(perm_jsSort _).mem_iff, h4, h2]
  simp

/-- The call `sort()` has a single possible result on distinct strings: two strictly
ascending arrangements of the same strings are equal. -/
theorem strict_sorted_unique (l1 l2 : List JSString) (hp : l1.Perm l2)
    (h1 : l1.Pairwise (fun a b => strLt a b = true))
    (h2 : l2.Pairwise (fun a b => strLt a b = true)) : l1 = l2 := by
  haveI : IsAntisymm JSString (fun a b => strLt a b = true) :=
    ⟨fun a b hab hba => by
      rw [strLt_asymm a b hab] at hba
      exact absurd hba (by simp)⟩
  exact List.eq_of_perm_of_sorted hp h1 h2

/-! ## Termination (C24) and the table entries (C23) -/

theorem isLongest_unique {b : Nat} {p w : JSString} {k1 k2 : Nat}
    (h1 : IsLongest b p w k1) (h2 : IsLongest b p w k2) : k1 = k2 :=
  Nat.le_antisymm (h2.2.2 k1 h1.1 h1.2.1) (h1.2.2 k2 h2.1 h2.2.1)

theorem list_eq_of_getD {r lps : List Nat} (hlen : r.length = lps.length)
    (h : ∀ j, j < lps.length → r.getD j 0 = lps.getD j 0) : r = lps := by
  apply List.ext_getElem hlen
  intro j h1 h2
  have := h j h2
  rw [List.getD_eq_getElem?_getD, List.getD_eq_getElem?_getD,
    List.getElem?_eq_getElem h1, List.getElem?_eq_getElem h2] at this
  simpa using this

/-- With any allowance of at least `2 * m` iterations the loop of
`computeFailureFunction` returns the array that `computeFailureFunction` returns. -/
theorem failureLoop_fuel (p : JSString) (lps : List Nat)
    (hlps : computeFailureFunction p = some lps) (fuel : Nat) (hfuel : 2 * p.length ≤ fuel) :
    failureLoop p fuel (List.replicate p.length 0) 0 1 = some lps := by
  obtain ⟨lps2, hlps2, hlen, htab⟩ := computeFailureFunction_spec p
  rw [hlps] at hlps2
  have he : lps2 = lps := (Option.some.inj hlps2).symm
  subst he
  have h0 : ∀ j, j < 1 → j < p.length →
      IsLongest j p (p.take (j + 1)) ((List.replicate p.length 0).getD j 0) := by
    intro j hj hjm
    have hj0 : j = 0 := by omega
    subst hj0
    have : (List.replicate p.length 0).getD 0 0 = 0 := by
      simp [List.getElem?_replicate, hjm]
    rw [this]
    exact ⟨le_refl _, by simp, fun k2 hk2 _ => hk2⟩
  have h1 : 1 < p.length → 0 ≤ 1 - 1 ∧ p.take 0 <:+ p.take 1 ∧
      ∀ j, j ≤ 1 - 1 → p.take j <:+ p.take 1 → p.get? j = p.get? 1 → j ≤ 0 :=
    fun _ => ⟨by omega, by simp, fun j hj _ _ => by omega⟩
  obtain ⟨r, hr, hrlen, hrtab⟩ := failureLoop_spec p fuel
    (List.replicate p.length 0) 0 1 (by simp) (le_refl _) h0 h1 (by omega)
  rw [hr]
  congr 1
  apply list_eq_of_getD (by omega)
  intro j hj
  exact isLongest_unique (hrtab j (by omega)) (htab j (by omega))

/-- C24: `computeFailureFunction` terminates for every pattern: the loop returns within
`2 * m` iterations, with the same array for every larger allowance. The failure-chain
walk of `buildDFA` terminates for every state and character, within `state` iterations,
because each fallback `k = failure[k - 1]` strictly decreases `k`. Both are total. -/
theorem C24_termination (pattern : JSString) :
    ∃ failure, computeFailureFunction pattern = some failure ∧
      (∀ fuel, 2 * pattern.length ≤ fuel →
        failureLoop pattern fuel (List.replicate pattern.length 0) 0 1 = some failure) ∧
      (∀ k, 0 < k → failure.getD (k - 1) 0 < k) ∧
      ∀ (char : JSString) (state fuel : Nat), state ≤ fuel →
        ∃ k, fallback pattern failure char fuel state = some k ∧ k ≤ state := by
  obtain ⟨lps, hlps, hlen, htab⟩ := computeFailureFunction_spec pattern
  have hle := table_le htab hlen
  refine ⟨lps, hlps, fun fuel hfuel => failureLoop_fuel pattern lps hlps fuel hfuel, ?_, ?_⟩
  · intro k hk
    have := hle (k - 1)
    omega
  · intro char state fuel hfuel
    exact fallback_total char hle fuel state hfuel

/-- For a one-unit alphabet character the table entry below `m` is the length of the
longest prefix of the pattern that is a suffix of `pattern[0..s)` followed by it. -/
theorem entry_longest_of_unit (pattern sample : JSString) (hne : pattern ≠ []) (s u : Nat)
    (hs : s < pattern.length) (hu : [u] ∈ buildAlphabet pattern sample) :
    ∃ d row n, buildDFA pattern sample = some d ∧ objGet d.transitionTable s = some row ∧
      objGet row [u] = some n ∧
      IsLongest pattern.length pattern (pattern.take s ++ [u]) n ∧
      (pattern.get? s = some u → n = s + 1) := by
  obtain ⟨lps, table, _, hlen, htab, hbuild, hget⟩ := buildDFA_spec pattern sample hne
  obtain ⟨row, hrow, hent⟩ := (hget s).1 (by omega)
  obtain ⟨n, hn, hlong⟩ := nextState_spec (u := u) htab hs (isLongest_self pattern (by omega))
  refine ⟨_, row, n, hbuild, hrow, ?_, hlong, ?_⟩
  · rw [hent, if_pos hu, hn]
  · intro hget2
    have h1 : s < pattern.length ∧ charAt pattern s = some [u] :=
      ⟨hs, (charAt_eq_iff pattern s u).2 hget2⟩
    unfold nextState at hn
    rw [if_pos h1] at hn
    exact (Option.some.inj hn).symm

/-- C23 fails on the code for an alphabet character outside the BMP. With the pattern
U+1F600 (units D83D DE00) the alphabet holds that character as one two-unit string, and
the table compares it with single code units of the pattern: the entry at state 0 is 0,
while the longest prefix of the pattern that is a suffix of `pattern[0..0)` followed by
the character is the whole pattern, of length 2. -/
theorem C23_surrogate_pair_entry :
    ∃ d row, buildDFA [0xD83D, 0xDE00] [] = some d ∧ d.alphabet = [[0xD83D, 0xDE00]] ∧
      objGet d.transitionTable 0 = some row ∧ objGet row [0xD83D, 0xDE00] = some 0 ∧
      IsLongest 2 [0xD83D, 0xDE00] (List.take 0 [0xD83D, 0xDE00] ++ [0xD83D, 0xDE00]) 2 := by
  refine ⟨_, [([0xD83D, 0xDE00], 0)], rfl, by decide, by decide, by decide, ?_⟩
  exact ⟨le_refl _, by decide, fun k2 hk2 _ => hk2⟩

/-! ## The playback state machine (C25) -/

theorem hookInv_applyOp (op : HookOp) (hs : HookState) (h : HookInv hs) :
    HookInv (applyOp op hs) := by
  obtain ⟨dfa, mr, sim⟩ := hs
  cases op with
  | load pattern text =>
    simp only [applyOp, loadEffect]
    split
    · simp [HookInv]
    · split
      · simp [HookInv]
      · split
        · simp [HookInv]
        · simp only [HookInv]
          split
          · trivial
          · constructor <;> omega
  | startSimulation =>
    cases mr with
    | none => exact h
    | some r =>
      simp only [HookInv] at h
      simp only [applyOp, startSimulation]
      split
      · exact h
      · rename_i hn
        simp only [HookInv]
        split <;> constructor <;> omega
  | pauseSimulation => exact h
  | resumeSimulation => exact h
  | resetSimulation =>
    cases mr with
    | none => rfl
    | some r =>
      simp only [applyOp, resetSimulation, HookInv]
      constructor <;> omega
  | stepForward =>
    cases mr with
    | none => exact h
    | some r =>
      simp only [HookInv] at h
      simp only [applyOp, stepForward, HookInv]
      constructor <;> omega
  | stepBackward =>
    cases mr with
    | none =>
      simp only [HookInv] at h
      simp only [applyOp, stepBackward, HookInv]
      omega
    | some r =>
      simp only [HookInv] at h
      simp only [applyOp, stepBackward, HookInv]
      constructor <;> omega
  | setSpeed speed => exact h
  | jumpToStep step =>
    cases mr with
    | none => exact h
    | some r =>
      simp only [applyOp, jumpToStep, HookInv]
      constructor <;> omega
  | tick =>
    cases mr with
    | none => exact h
    | some r =>
      simp only [HookInv] at h
      simp only [applyOp, tick]
      split
      · split
        · exact h
        · simp only [HookInv]
          constructor <;> omega
      · exact h

/-- C25: in the playback state machine of `useDFASimulation`, with
`n = matchResult.steps.length`, the invariant `-1 <= currentStep <= n - 1`
(`currentStep == -1` when there is no `matchResult`) holds initially, is preserved by
every operation (the reload on a new pattern or text, `startSimulation`,
`pauseSimulation`, `resumeSimulation`, `resetSimulation`, `stepForward`, `stepBackward`,
`setSpeed`, `jumpToStep`, the auto-advance tick), hence holds after every sequence of
operations; and `jumpToStep(k)` sets `currentStep` to `max(-1, min(k, n - 1))` for every
integer `k`. -/
theorem C25_playback_invariant :
    HookInv initialHook ∧
    (∀ (op : HookOp) (hs : HookState), HookInv hs → HookInv (applyOp op hs)) ∧
    (∀ ops : List HookOp, HookInv (ops.foldl (fun hs op => applyOp op hs) initialHook)) ∧
    ∀ (hs : HookState) (r : MatchResult) (k : Int), hs.matchResult = some r →
      (applyOp (HookOp.jumpToStep k) hs).simulation.currentStep =
        max (-1) (min k ((r.steps.length : Int) - 1)) := by
  have h0 : HookInv initialHook := rfl
  refine ⟨h0, hookInv_applyOp, ?_, ?_⟩
  · intro ops
    have : ∀ (l : List HookOp) (hs : HookState), HookInv hs →
        HookInv (l.foldl (fun hs op => applyOp op hs) hs) := by
      intro l
      induction l with
      | nil => intro hs h; exact h
      | cons op l ih => intro hs h; exact ih _ (hookInv_applyOp op hs h)
    exact this ops _ h0
  · intro hs r k hmr
    simp only [applyOp, jumpToStep, hmr]

/-! ## Runs over a built DFA: absorbing matches (C28) and bounds (C29) -/

/-- The DFA of a non-empty pattern and its simulation over a text, side by side. -/
theorem build_simulate (p sample text : JSString) (hne : p ≠ []) :
    ∃ lps d, lps.length = p.length ∧
      (∀ j, j < p.length → IsLongest j p (p.take (j + 1)) (lps.getD j 0)) ∧
      buildDFA p sample = some d ∧ d.alphabet = buildAlphabet p sample ∧
      (∀ s, (s ≤ p.length → ∃ row, objGet d.transitionTable s = some row ∧
          ∀ c, objGet row c =
            if c ∈ buildAlphabet p sample then nextState p lps s c else none) ∧
        (p.length < s → objGet d.transitionTable s = none)) ∧
      simulateDFA p text d.transitionTable d.alphabet = some
        { steps := (List.range text.length).map (fun k =>
            mkStep p.length k [text.getD k 0]
              (some (dfaRun p lps (buildAlphabet p sample) 0 (text.take k)))
              (some (dfaRun p lps (buildAlphabet p sample) 0 (text.take (k + 1))))),
          «matches» := ((List.range text.length).filter (fun k =>
            decide (dfaRun p lps (buildAlphabet p sample) 0 (text.take (k + 1)) = p.length))).map
              (fun (k : Nat) => (k : Int) - (p.length : Int) + 1),
          totalComparisons := text.length } := by
  obtain ⟨lps, table, _, hlen, htab, hbuild, hget⟩ := buildDFA_spec p sample hne
  have hsim := simLoop_built (p := p) (table_le htab hlen) (fun s hs => (hget s).1 hs)
    text 0 0 (Nat.zero_le _)
  refine ⟨lps, _, hlen, htab, hbuild, rfl, hget, ?_⟩
  simp only [simulateDFA, hsim]
  simp

theorem get_map_range {α : Type} (f : Nat → α) (n i : Nat) (a : α)
    (h : ((List.range n).map f).get? i = some a) : i < n ∧ a = f i := by
  simp only [List.get?_eq_getElem?, List.getElem?_map] at h
  have hi : i < n := by
    by_contra hge
    rw [List.getElem?_eq_none (by simp; omega)] at h
    simp at h
  rw [List.getElem?_range hi] at h
  simp only [Option.map_some', Option.some.injEq] at h
  exact ⟨hi, h.symm⟩

theorem dfaNext_le {p : JSString} {lps : List Nat} (al : List JSString)
    (hle : ∀ j, lps.getD j 0 ≤ j) {s : Nat} (hs : s ≤ p.length) (u : Nat) :
    dfaNext p lps al s u ≤ s + 1 ∧ (s = p.length → [u] ∈ al → dfaNext p lps al s u = s) := by
  unfold dfaNext
  obtain ⟨n, hn, _, hn1, hn2⟩ := nextState_total (p := p) [u] hle hs
  by_cases hu : [u] ∈ al
  · rw [if_pos hu, hn, Option.getD_some]
    exact ⟨hn1, fun h _ => by rw [hn2 h, h]⟩
  · rw [if_neg hu]
    exact ⟨by omega, fun _ h => absurd h hu⟩

theorem dfaRun_le_length {p : JSString} {lps : List Nat} (al : List JSString)
    (hle : ∀ j, lps.getD j 0 ≤ j) : ∀ (w : List Nat) (s : Nat), s ≤ p.length →
    dfaRun p lps al s w ≤ s + w.length := by
  intro w
  induction w with
  | nil => intro s _; simp [dfaRun]
  | cons u w ih =>
    intro s hs
    have hrun : dfaRun p lps al s (u :: w) = dfaRun p lps al (dfaNext p lps al s u) w := rfl
    have h1 := (dfaNext_le (p := p) al hle hs u).1
    have h2 : dfaNext p lps al s u ≤ p.length := by
      have := @dfaRun_le p lps al hle [u] s hs
      simpa [dfaRun] using this
    have h3 := ih _ h2
    rw [hrun, List.length_cons]
    omega

/-- C28: for every non-empty pattern and every text, when `simulateDFA` runs over a DFA
built by `buildDFA`, if step `i` is matched and the character `text[i+1]` is in the
alphabet, then step `i+1` is also matched, with `matchStart` exactly one greater than
that of step `i`. -/
theorem C28_absorbing_match (pattern sample text : JSString) (hne : pattern ≠ []) :
    ∃ d r, buildDFA pattern sample = some d ∧
      simulateDFA pattern text d.transitionTable d.alphabet = some r ∧
      ∀ i a b, r.steps.get? i = some a → r.steps.get? (i + 1) = some b →
        a.matched = true → b.char ∈ d.alphabet →
        b.matched = true ∧ ∃ z, a.matchStart = some z ∧ b.matchStart = some (z + 1) := by
  obtain ⟨lps, d, hlen, htab, hbuild, hal, _, hsim⟩ := build_simulate pattern sample text hne
  refine ⟨d, _, hbuild, hsim, ?_⟩
  intro i a b ha hb hma hchar
  obtain ⟨hi, rfl⟩ := get_map_range _ _ _ _ ha
  obtain ⟨hi1, rfl⟩ := get_map_range _ _ _ _ hb
  rw [hal] at hchar
  have hchar2 : [text.getD (i + 1) 0] ∈ buildAlphabet pattern sample := hchar
  have hrun : dfaRun pattern lps (buildAlphabet pattern sample) 0 (text.take (i + 1)) =
      pattern.length := by
    simpa [mkStep] using hma
  have hnext : dfaRun pattern lps (buildAlphabet pattern sample) 0 (text.take (i + 1 + 1)) =
      pattern.length := by
    rw [take_succ_getD text hi1, dfaRun_snoc, hrun]
    exact (dfaNext_le (p := pattern) _ (table_le htab hlen) (le_refl _) _).2 rfl hchar2
  refine ⟨by simp [mkStep, hnext], (i : Int) - (pattern.length : Int) + 1, ?_, ?_⟩
  · simp [mkStep, hrun]
  · simp only [mkStep, hnext, decide_True, if_true, Option.some.injEq]
    push_cast
    ring

/-- C28 at pattern "aba" and text "ababa", with the DFA of `buildDFA("aba", "ababa")`:
the matches are `[0,1,2]`. -/
theorem C28_absorbing_match_witness :
    ofAscii "aba" ≠ [] ∧
    (runDFA (ofAscii "aba") (ofAscii "ababa") (ofAscii "ababa")).map
      (fun r => r.«matches») = some [0, 1, 2] ∧
    ∃ d r, buildDFA (ofAscii "aba") (ofAscii "ababa") = some d ∧
      simulateDFA (ofAscii "aba") (ofAscii "ababa") d.transitionTable d.alphabet = some r ∧
      ∀ i a b, r.steps.get? i = some a → r.steps.get? (i + 1) = some b →
        a.matched = true → b.char ∈ d.alphabet →
        b.matched = true ∧ ∃ z, a.matchStart = some z ∧ b.matchStart = some (z + 1) :=
  ⟨by decide, by decide,
    C28_absorbing_match (ofAscii "aba") (ofAscii "ababa") (ofAscii "ababa") (by decide)⟩

/-- C29: for every non-empty pattern of length `m`, every sample text and every text of
length `n`, when `simulateDFA` runs over a DFA built by `buildDFA`: each table entry
satisfies `transitionTable[s][c] <= s + 1`, the state after step `i` is at most
`min(i + 1, m)`, the matches list is strictly increasing and every element lies in
`[0, n - m]`. -/
theorem C29_bounds (pattern sample text : JSString) (hne : pattern ≠ []) :
    ∃ d r, buildDFA pattern sample = some d ∧
      simulateDFA pattern text d.transitionTable d.alphabet = some r ∧
      (∀ s c row n, objGet d.transitionTable s = some row → objGet row c = some n →
        n ≤ s + 1) ∧
      (∀ i step, r.steps.get? i = some step →
        ∃ b, step.toState = some b ∧ b ≤ min (i + 1) pattern.length) ∧
      r.«matches».Pairwise (fun a b => a < b) ∧
      ∀ z, z ∈ r.«matches» → 0 ≤ z ∧ z ≤ (text.length : Int) - (pattern.length : Int) := by
  obtain ⟨lps, d, hlen, htab, hbuild, hal, hget, hsim⟩ :=
    build_simulate pattern sample text hne
  have hle := table_le htab hlen
  have hbound : ∀ k, dfaRun pattern lps (buildAlphabet pattern sample) 0 (text.take k) ≤
      min k pattern.length := by
    intro k
    have h1 := dfaRun_le_length (p := pattern) (buildAlphabet pattern sample) hle
      (text.take k) 0 (Nat.zero_le _)
    have h2 := @dfaRun_le pattern lps (buildAlphabet pattern sample) hle
      (text.take k) 0 (Nat.zero_le _)
    have h3 : (text.take k).length ≤ k := by simp
    omega
  refine ⟨d, _, hbuild, hsim, ?_, ?_, ?_, ?_⟩
  · intro s c row n hrow hent
    by_cases hs : s ≤ pattern.length
    · obtain ⟨row2, hrow2, hent2⟩ := (hget s).1 hs
      rw [hrow] at hrow2
      have hr : row = row2 := Option.some.inj hrow2
      subst hr
      rw [hent2] at hent
      split at hent
      · obtain ⟨n2, hn2, _, hn3, _⟩ := nextState_total (p := pattern) c hle hs
        rw [hn2] at hent
        have : n2 = n := Option.some.inj hent
        omega
      · exact absurd hent (by simp)
    · rw [(hget s).2 (by omega)] at hrow
      exact absurd hrow (by simp)
  · intro i step hstep
    obtain ⟨_, rfl⟩ := get_map_range _ _ _ _ hstep
    exact ⟨_, rfl, hbound (i + 1)⟩
  · simp only []
    apply List.Pairwise.map (R := fun a b : Nat => a < b)
    · intro a b hab
      omega
    · exact (List.pairwise_lt_range _).sublist (List.filter_sublist _)
  · intro z hz
    simp only [List.mem_map, List.mem_filter, List.mem_range, decide_eq_true_eq] at hz
    obtain ⟨k, ⟨hk, hkm⟩, rfl⟩ := hz
    have := hbound (k + 1)
    omega

/-- C29 at pattern "aba" with sample and text "ababa". -/
theorem C29_bounds_witness :
    ofAscii "aba" ≠ [] ∧
    ∃ d r, buildDFA (ofAscii "aba") (ofAscii "ababa") = some d ∧
      simulateDFA (ofAscii "aba") (ofAscii "ababa") d.transitionTable d.alphabet = some r ∧
      (∀ s c row n, objGet d.transitionTable s = some row → objGet row c = some n →
        n ≤ s + 1) ∧
      (∀ i step, r.steps.get? i = some step →
        ∃ b, step.toState = some b ∧ b ≤ min (i + 1) (ofAscii "aba").length) ∧
      r.«matches».Pairwise (fun a b => a < b) ∧
      ∀ z, z ∈ r.«matches» →
        0 ≤ z ∧ z ≤ ((ofAscii "ababa").length : Int) - ((ofAscii "aba").length : Int) :=
  ⟨by decide, C29_bounds (ofAscii "aba") (ofAscii "ababa") (ofAscii "ababa") (by decide)⟩

/-! ## Completeness and leftmost match (C26, C27) -/

theorem occursAt_bound {p text : JSString} {s : Nat} (hne : p ≠ []) (h : OccursAt p text s) :
    s + p.length ≤ text.length := by
  have hm : 0 < p.length := List.length_pos.2 hne
  unfold OccursAt at h
  have hl := congrArg List.length h
  simp only [List.length_take, List.length_drop] at hl
  omega

/-- When every code unit of the pattern is an alphabet character, the matches are
strictly increasing and are the indices reached at or after an occurrence while the run
stays in the accepting state. -/
theorem matches_of_units (pattern sample text : JSString) (hne : pattern ≠ [])
    (hal : ∀ u, u ∈ pattern → [u] ∈ buildAlphabet pattern sample) :
    ∃ r, runDFA pattern sample text = some r ∧
      r.«matches».Pairwise (fun a b => a < b) ∧
      ∀ z : Int, z ∈ r.«matches» ↔
        ∃ s s0 : Nat, z = (s : Int) ∧ s0 ≤ s ∧ OccursAt pattern text s0 ∧
          s + pattern.length ≤ text.length ∧
          ∀ i, s0 + pattern.length ≤ i → i < s + pattern.length →
            [text.getD i 0] ∈ buildAlphabet pattern sample := by
  obtain ⟨lps, _, hlen, htab, hrun⟩ := runDFA_spec pattern sample text hne
  have hm : 0 < pattern.length := List.length_pos.2 hne
  have hex := dfaRun_exact (buildAlphabet pattern sample) text hne hlen htab hal
  refine ⟨_, hrun, ?_, ?_⟩
  · simp only []
    apply List.Pairwise.map (R := fun a b : Nat => a < b)
    · intro a b hab
      omega
    · exact (List.pairwise_lt_range _).sublist (List.filter_sublist _)
  · intro z
    simp only [List.mem_map, List.mem_filter, List.mem_range, decide_eq_true_eq]
    constructor
    · rintro ⟨k, ⟨hk, hkm⟩, rfl⟩
      obtain ⟨_, h2⟩ := hex (k + 1) (by omega)
      have habs : Absorbed pattern (buildAlphabet pattern sample) text (k + 1) := by
        by_contra hnot
        have := (h2 hnot).2
        omega
      obtain ⟨e, he, hocc, hch⟩ := habs
      obtain ⟨hme, hocc2⟩ := (suffix_take_iff pattern text (by omega : e ≤ text.length)).1 hocc
      refine ⟨k + 1 - pattern.length, e - pattern.length, by omega, by omega, hocc2, by omega,
        fun i hi hi2 => hch i (by omega) (by omega)⟩
    · rintro ⟨s, s0, rfl, hs0, hocc, hsn, hch⟩
      have habs : Absorbed pattern (buildAlphabet pattern sample) text
          (s + pattern.length - 1 + 1) := by
        refine ⟨s0 + pattern.length, by omega, ?_, fun i hi hi2 => hch i hi (by omega)⟩
        rw [suffix_take_iff pattern text (by omega)]
        refine ⟨by omega, ?_⟩
        rw [Nat.add_sub_cancel]
        exact hocc
      exact ⟨s + pattern.length - 1, ⟨by omega, (hex _ (by omega)).1 habs⟩, by omega⟩

/-- When every code unit of the pattern is an alphabet character (no whitespace, no
surrogate pair), every occurrence of the pattern is in `matches`, `matches` is non-empty
exactly when the pattern occurs, and its first element is the smallest occurrence. -/
theorem matches_complete_leftmost_of_units (pattern sample text : JSString)
    (hne : pattern ≠ []) (hal : ∀ u, u ∈ pattern → [u] ∈ buildAlphabet pattern sample) :
    ∃ r, runDFA pattern sample text = some r ∧
      (∀ s, OccursAt pattern text s → (s : Int) ∈ r.«matches») ∧
      (r.«matches» ≠ [] ↔ ∃ s, OccursAt pattern text s) ∧
      ∀ z, r.«matches».head? = some z →
        ∃ s : Nat, z = (s : Int) ∧ OccursAt pattern text s ∧
          ∀ s2, OccursAt pattern text s2 → s ≤ s2 := by
  obtain ⟨r, hr, hsorted, hmem⟩ := matches_of_units pattern sample text hne hal
  have hcomplete : ∀ s, OccursAt pattern text s → (s : Int) ∈ r.«matches» := by
    intro s hs
    rw [hmem]
    exact ⟨s, s, rfl, le_refl _, hs, occursAt_bound hne hs, fun i h1 h2 => by omega⟩
  refine ⟨r, hr, hcomplete, ?_, ?_⟩
  · constructor
    · intro hnil
      obtain ⟨z, hz⟩ := List.exists_mem_of_ne_nil _ hnil
      obtain ⟨s, s0, _, _, hocc, _⟩ := (hmem z).1 hz
      exact ⟨s0, hocc⟩
    · rintro ⟨s, hs⟩ hnil
      have := hcomplete s hs
      rw [hnil] at this
      exact absurd this (by simp)
  · intro z hz
    cases hm : r.«matches» with
    | nil => rw [hm] at hz; simp at hz
    | cons x xs =>
      rw [hm] at hz hsorted
      simp only [List.head?_cons, Option.some.injEq] at hz
      subst hz
      have hxmem : x ∈ r.«matches» := by rw [hm]; exact List.mem_cons_self _ _
      obtain ⟨s, s0, hx, hs0, hocc, _, _⟩ := (hmem x).1 hxmem
      have hmin : ∀ s2, OccursAt pattern text s2 → x ≤ (s2 : Int) := by
        intro s2 hs2
        have h2 := hcomplete s2 hs2
        rw [hm] at h2
        rcases List.mem_cons.1 h2 with h | h
        · omega
        · exact le_of_lt ((List.pairwise_cons.1 hsorted).1 _ h)
      have hs0s : s0 = s := by
        have := hmin s0 hocc
        omega
      subst hs0s
      exact ⟨s0, hx, hocc, fun s2 hs2 => by have := hmin s2 hs2; omega⟩

/-- C26 fails on the code for a pattern with a character outside the BMP (the defect of
C13): with the pattern U+1F600 (units D83D DE00, no whitespace) and the text "a" followed
by U+1F600, the pattern occurs at index 1 and `matches` is empty. -/
theorem C26_surrogate_pair_missed :
    ∃ r, runDFA [0xD83D, 0xDE00] [97, 0xD83D, 0xDE00] [97, 0xD83D, 0xDE00] = some r ∧
      r.«matches» = [] ∧
      (∀ u, u ∈ [0xD83D, 0xDE00] → isWhiteSpace u = false) ∧
      OccursAt [0xD83D, 0xDE00] [97, 0xD83D, 0xDE00] 1 := by
  refine ⟨_, rfl, by decide, by decide, ?_⟩
  unfold OccursAt
  decide

/-- C27 fails on the code for a pattern with a character outside the BMP (the defect of
C13): with the pattern "a" followed by U+1F600 (units 0061 D83D DE00, no whitespace) and
the text "ba" followed by U+1F600, the pattern occurs in the text, at index 1, and the
`matches` list is empty. -/
theorem C27_surrogate_pair_no_match :
    ∃ r, runDFA [97, 0xD83D, 0xDE00] [98, 97, 0xD83D, 0xDE00] [98, 97, 0xD83D, 0xDE00] =
        some r ∧
      r.«matches» = [] ∧ r.steps.map (fun s => s.toState) = [some 0, some 1, some 0, some 0] ∧
      (∀ u, u ∈ [97, 0xD83D, 0xDE00] → isWhiteSpace u = false) ∧
      OccursAt [97, 0xD83D, 0xDE00] [98, 97, 0xD83D, 0xDE00] 1 := by
  refine ⟨_, rfl, by decide, by decide, by decide, ?_⟩
  unfold OccursAt
  decide

/-! ## Characters that come from the sample text only (C30) -/

theorem codePoints_sub : ∀ (p c : JSString), c ∈ codePoints p → c <:+: p
  | [], c, h => by simp [codePoints] at h
  | [u], c, h => by
    simp only [codePoints, List.mem_singleton] at h
    subst h
    exact ⟨[], [], rfl⟩
  | u :: v :: rest, c, h => by
    rw [codePoints] at h
    split at h
    · rcases List.mem_cons.1 h with h1 | h1
      · rw [h1]
        exact ⟨[], rest, rfl⟩
      · obtain ⟨a, b, hab⟩ := codePoints_sub rest c h1
        exact ⟨u :: v :: a, b, by rw [← hab]; simp⟩
    · rcases List.mem_cons.1 h with h1 | h1
      · rw [h1]
        exact ⟨[], v :: rest, rfl⟩
      · obtain ⟨a, b, hab⟩ := codePoints_sub (v :: rest) c h1
        exact ⟨u :: a, b, by rw [← hab]; simp⟩

theorem charAt_sub {p c : JSString} {k : Nat} (h : charAt p k = some c) : c <:+: p := by
  unfold charAt at h
  cases hg : p.get? k with
  | none =>
    rw [hg] at h
    simp at h
  | some u =>
    rw [hg] at h
    simp only [Option.map_some', Option.some.injEq] at h
    rw [← h]
    refine ⟨p.take k, p.drop (k + 1), ?_⟩
    rw [← take_succ_of_get hg]
    exact List.take_append_drop _ _

theorem buildAlphabet_no_sample (p : JSString) :
    buildAlphabet p [] = firstOccurrences ((codePoints p).filter keepChar) := by
  rw [buildAlphabet_eq]
  simp [codePoints, firstOccurrences, jsSort]

theorem mem_alphabet_of_no_sample (p sample c : JSString) (h : c ∈ buildAlphabet p []) :
    c ∈ buildAlphabet p sample ∧ c <:+: p := by
  rw [buildAlphabet_no_sample] at h
  refine ⟨?_, ?_⟩
  · rw [buildAlphabet_eq]
    exact List.mem_append_left _ h
  · rw [mem_firstOccurrences, List.mem_filter] at h
    exact codePoints_sub p c h.1

/-- Below `m`, the table entry of a character that is no substring of the pattern
is `0`. -/
theorem nextState_absent {p : JSString} {lps : List Nat} {c : JSString} {s : Nat}
    (hle : ∀ j, lps.getD j 0 ≤ j) (hs : s < p.length) (hc : ¬ c <:+: p) :
    nextState p lps s c = some 0 := by
  obtain ⟨n, hn, _, hn2⟩ := nextState_shape (p := p) c hle hs
  rcases hn2 with h0 | hch
  · rw [hn, h0]
  · exact absurd (charAt_sub hch) hc

/-- What holds for every sample text: an alphabet character that is no substring of
the pattern (none of its code units, in particular) has entry `0` at every state below
`m`; every character of the alphabet of `buildDFA(pattern)` is in the alphabet of
`buildDFA(pattern, text)`, with the same table column; and for an added one-unit
character that is no code unit of the pattern the move of the simulation differs from
the one without the sample text only at state `m`, where it self-loops instead of
resetting to `0`. -/
theorem absent_character_columns (pattern sample : JSString) (hne : pattern ≠ []) :
    ∃ d d0, buildDFA pattern sample = some d ∧ buildDFA pattern [] = some d0 ∧
      (∀ c, c ∈ d.alphabet → ¬ c <:+: pattern → ∀ s, s < pattern.length →
        ∃ row, objGet d.transitionTable s = some row ∧ objGet row c = some 0) ∧
      (∀ c, c ∈ d0.alphabet → c ∈ d.alphabet ∧ ∀ s, s ≤ pattern.length →
        ∃ row row0 n, objGet d.transitionTable s = some row ∧
          objGet d0.transitionTable s = some row0 ∧
          objGet row c = some n ∧ objGet row0 c = some n) ∧
      (∀ u, [u] ∈ d.alphabet → ¬ [u] <:+: pattern →
        (∀ s, s < pattern.length →
          lookupNext d.transitionTable d.alphabet (some s) [u] = some (some 0) ∧
          lookupNext d0.transitionTable d0.alphabet (some s) [u] = some (some 0)) ∧
        lookupNext d.transitionTable d.alphabet (some pattern.length) [u] =
          some (some pattern.length) ∧
        lookupNext d0.transitionTable d0.alphabet (some pattern.length) [u] =
          some (some 0)) := by
  obtain ⟨lps, table, hlps, hlen, htab, hbuild, hget⟩ := buildDFA_spec pattern sample hne
  obtain ⟨lps0, table0, hlps0, _, _, hbuild0, hget0⟩ := buildDFA_spec pattern [] hne
  rw [hlps] at hlps0
  have he : lps = lps0 := Option.some.inj hlps0
  subst he
  have hle := table_le htab hlen
  refine ⟨_, _, hbuild, hbuild0, ?_, ?_, ?_⟩
  · intro c hc hsub s hs
    obtain ⟨row, hrow, hent⟩ := (hget s).1 (by omega)
    have hc2 : c ∈ buildAlphabet pattern sample := hc
    exact ⟨row, hrow, by rw [hent, if_pos hc2, nextState_absent hle hs hsub]⟩
  · intro c hc
    have hc0 : c ∈ buildAlphabet pattern [] := hc
    have hc2 := (mem_alphabet_of_no_sample pattern sample c hc0).1
    refine ⟨hc2, ?_⟩
    intro s hs
    obtain ⟨row, hrow, hent⟩ := (hget s).1 hs
    obtain ⟨row0, hrow0, hent0⟩ := (hget0 s).1 hs
    obtain ⟨n, hn, _⟩ := nextState_total (p := pattern) c hle hs
    exact ⟨row, row0, n, hrow, hrow0, by rw [hent, if_pos hc2, hn],
      by rw [hent0, if_pos hc0, hn]⟩
  · intro u hu hsub
    have hu2 : [u] ∈ buildAlphabet pattern sample := hu
    have hu0 : [u] ∉ buildAlphabet pattern [] :=
      fun h => hsub (mem_alphabet_of_no_sample pattern sample [u] h).2
    have hd : ∀ s, s ≤ pattern.length →
        lookupNext table (buildAlphabet pattern sample) (some s) [u] =
          some (nextState pattern lps s [u]) := by
      intro s hs
      obtain ⟨row, hrow, hent⟩ := (hget s).1 hs
      unfold lookupNext
      have : (buildAlphabet pattern sample).contains [u] = true := by simpa using hu2
      simp only [this, if_true, hrow, hent, if_pos hu2]
    refine ⟨?_, ?_, ?_⟩
    · intro s hs
      refine ⟨?_, lookupNext_outside _ _ _ _ hu0⟩
      show lookupNext table (buildAlphabet pattern sample) (some s) [u] = some (some 0)
      rw [hd s (by omega), nextState_absent hle hs hsub]
    · show lookupNext table (buildAlphabet pattern sample) (some pattern.length) [u] =
        some (some pattern.length)
      obtain ⟨n, hn, _, _, hn3⟩ := nextState_total (p := pattern) [u] hle
        (le_refl pattern.length)
      rw [hd _ (le_refl _), hn, hn3 rfl]
    · exact lookupNext_outside _ _ _ _ hu0

/-- C30 fails on the code for a lone surrogate of the sample text that is half of a
surrogate pair of the pattern (the defect of C13: characters are collected by code
point and compared by code unit). With the pattern U+1F600 (units D83D DE00) and the
sample text D83D, the alphabet is U+1F600 followed by D83D; D83D is not a character of
the pattern, and the alphabet of `buildDFA(pattern)` does not hold it; yet its entry at
state 0 is 1, and reading D83D ends in state 1 with the sample text and in state 0
without it, a change of the simulation below the accepting state `m = 2`. -/
theorem C30_lone_surrogate_entry :
    (buildDFA [0xD83D, 0xDE00] [0xD83D]).map (fun d => d.alphabet) =
      some [[0xD83D, 0xDE00], [0xD83D]] ∧
    (buildDFA [0xD83D, 0xDE00] []).map (fun d => d.alphabet) = some [[0xD83D, 0xDE00]] ∧
    [0xD83D] ∉ codePoints [0xD83D, 0xDE00] ∧
    (buildDFA [0xD83D, 0xDE00] [0xD83D]).bind
      (fun d => (objGet d.transitionTable 0).bind (fun row => objGet row [0xD83D])) = some 1 ∧
    (runDFA [0xD83D, 0xDE00] [0xD83D] [0xD83D]).map (fun r => r.steps.map (fun s => s.toState)) =
      some [some 1] ∧
    (runDFA [0xD83D, 0xDE00] [] [0xD83D]).map (fun r => r.steps.map (fun s => s.toState)) =
      some [some 0] := by
  refine ⟨by decide, by decide, by decide, by decide, by decide, by decide⟩

end PatternMatcher
